import Mathlib

/-!
# PodLifecycleLogger: reconciliation and eviction engine

A shallow embedding of `main.go`: the package-level variables become the
fields of `State`, `cleanup` and `worker` become functions on `State`, and a
call of `log.Fatal` (which ends the process) becomes the result `fatal`,
carrying the variables as they stand when the process exits.

Times are `time.Time` values read as integer nanoseconds. One reading of the
clock is taken per tick, so every `time.Now()` of one `worker` call yields the
same `now`.
-/

namespace PodLifecycleLogger

/-- Modelled from the spec: the type `v1.PodPhase` of `k8s.io/api/core/v1` is
not part of the repository; the phase is one of Pending, Running, Succeeded,
Failed, Unknown. -/
inductive PodPhase where
  | Pending
  | Running
  | Succeeded
  | Failed
  | Unknown
deriving DecidableEq, Repr

/-- The struct `PodsInfo` (main.go 49-54); `types.UID` is a string type. -/
structure PodsInfo where
  Name : String
  UID : String
  Status : PodPhase
  Timestamp : Int
deriving DecidableEq, Repr

/-- The fields of a `v1.Pod` of the pod listing that `worker` reads:
`pod.Name`, `pod.UID`, `pod.Status.Phase`. -/
structure Pod where
  Name : String
  UID : String
  Phase : PodPhase
deriving DecidableEq, Repr

/-- One element of `PodMetricsList.Items` (main.go 29-45): the metadata name
and namespace, the sample timestamp, the window and the per-container usage
(container name, cpu, memory). -/
structure PodMetrics where
  Name : String
  Namespace : String
  Timestamp : Int
  Window : String
  Containers : List (String × String × String)
deriving DecidableEq, Repr

/-- A line written through the `log` package: the raw pod description printed
by `logPodInfo` (main.go 87) or the marshalled metrics item printed by `worker`
(main.go 128-129). -/
inductive LogLine where
  | podRaw (raw : String)
  | metrics (m : PodMetrics)
deriving DecidableEq, Repr

/-- The package-level variables of main.go 65-78 and the lines logged so far. -/
structure State where
  ActivePods : List PodsInfo
  InactivePods : List PodsInfo
  ActivePodsSet : Finset String
  InactivePodsSet : Finset String
  LastPodMetricsTime : String → Option Int
  logged : List LogLine

/-- The variables as `main` leaves them before the first `worker` call
(main.go 244-246): nil slices, empty sets, empty map. -/
def State.init : State :=
  { ActivePods := [], InactivePods := [], ActivePodsSet := ∅, InactivePodsSet := ∅,
    LastPodMetricsTime := fun _ => none, logged := [] }

/-- Outcome of a function that may call `log.Fatal`: `ok s` when it returns
with the variables `s`, `fatal s msg` when `log.Fatal(msg)` ends the process
with the variables `s`. -/
inductive Result where
  | ok (s : State)
  | fatal (s : State) (msg : String)

/-- The variables at the end of the call, whether it returned or exited. -/
def Result.state : Result → State
  | .ok s => s
  | .fatal s _ => s

/-- Whether the call returned without `log.Fatal`. -/
def Result.isOk : Result → Bool
  | .ok _ => true
  | .fatal _ _ => false

/-- Sequencing: a fatal exit stops everything that follows. -/
def Result.bind (r : Result) (f : State → Result) : Result :=
  match r with
  | .ok s => f s
  | .fatal s msg => .fatal s msg

/-- `InactivePodsThresholdCnt` (main.go 57). -/
def InactivePodsThresholdCnt : Nat := 1000

/-- `InactivePodsThresholdTime` (main.go 60): 24 hours in nanoseconds. -/
def InactivePodsThresholdTime : Int := 24 * 3600 * 1000000000

/-- The names of a slice of records, in order. -/
def names (l : List PodsInfo) : List String := l.map (fun m => m.Name)

/-- The test of main.go 94: `m.Timestamp.After(time.Now().Add(-InactivePodsThresholdTime))`. -/
def inWindow (now : Int) (m : PodsInfo) : Bool :=
  decide (now - InactivePodsThresholdTime < m.Timestamp)

/-- The scan of main.go 92-98: the index of the first record inside the
retention window, `none` standing for `pos == -1`. -/
def firstInWindow (now : Int) : List PodsInfo → Option Nat
  | [] => none
  | m :: ms => if inWindow now m then some 0 else (firstInWindow now ms).map (· + 1)

/-- The rebuild of main.go 104-107: a fresh set receiving every name of the slice. -/
def rebuildSet (l : List PodsInfo) : Finset String :=
  l.foldl (fun acc m => insert m.Name acc) ∅

/-- The function `cleanup` (main.go 90-109). -/
def cleanup (now : Int) (s : State) : Result :=
  if s.InactivePods.length > InactivePodsThresholdCnt then
    match firstInWindow now s.InactivePods with
    | none => .fatal s "InactivePodsThresholdCnt and InactivePodsThresholdTime mismatch"
    | some pos =>
      let kept := s.InactivePods.drop (pos + 1)
      .ok { s with InactivePods := kept, InactivePodsSet := rebuildSet kept }
  else .ok s

/-- The function `logPodInfo` (main.go 80-88): `fetch name` is the outcome of
the `DoRaw` call, an error text or the raw pod description. -/
def logPodInfo (fetch : String → Except String String) (name : String) (s : State) : Result :=
  match fetch name with
  | .error e => .fatal s ("cannot get pod " ++ name ++ e)
  | .ok raw => .ok { s with logged := s.logged ++ [LogLine.podRaw raw] }

/-- One pass of the metrics loop body (main.go 125-130) over the pair
(`HasMetricsPodsSet`, variables). -/
def ingestItem (acc : Finset String × State) (m : PodMetrics) : Finset String × State :=
  let has := insert m.Name acc.1
  let s := acc.2
  let record : State :=
    { s with LastPodMetricsTime := fun n => if n = m.Name then some m.Timestamp else s.LastPodMetricsTime n,
             logged := s.logged ++ [LogLine.metrics m] }
  match s.LastPodMetricsTime m.Name with
  | none => (has, record)
  | some v => if v < m.Timestamp then (has, record) else (has, s)

/-- The metrics loop (main.go 116, 124-131), starting from an empty
`HasMetricsPodsSet`. -/
def ingest (items : List PodMetrics) (s : State) : Finset String × State :=
  items.foldl ingestItem (∅, s)

/-- The loop of main.go 160-172 over `ActivePods`: `none` when no record has
the pod's name (`flag` stays false); otherwise the slice after the in-place
update of the first such record, and whether `logPodInfo` is called. -/
def updateStatus (now : Int) (pod : Pod) : List PodsInfo → Option (List PodsInfo × Bool)
  | [] => none
  | c :: cs =>
    if c.Name = pod.Name then
      if c.Status ≠ pod.Phase then
        some ({ c with Status := pod.Phase, Timestamp := now } :: cs, true)
      else some (c :: cs, false)
    else (updateStatus now pod cs).map (fun r => (c :: r.1, r.2))

/-- The scan of main.go 192-198: the index of the first record with the given
name, `none` standing for `pos == -1`. -/
def indexOfName (name : String) : List PodsInfo → Option Nat
  | [] => none
  | c :: cs => if c.Name = name then some 0 else (indexOfName name cs).map (· + 1)

/-- The retirement of main.go 183-204. -/
def retire (now : Int) (pod : Pod) (s : State) : Result :=
  let s1 : State :=
    { s with ActivePodsSet := s.ActivePodsSet.erase pod.Name,
             InactivePodsSet := insert pod.Name s.InactivePodsSet,
             InactivePods := s.InactivePods ++ [{ Name := pod.Name, UID := pod.UID,
                                                  Status := pod.Phase, Timestamp := now }] }
  match indexOfName pod.Name s1.ActivePods with
  | some pos => .ok { s1 with ActivePods := s1.ActivePods.take pos ++ s1.ActivePods.drop (pos + 1) }
  | none => .fatal s1 "ActivePods mismatch with ActivePodsSet when deleting"

/-- The test of main.go 181-182: no metrics for the pod and a completed phase. -/
def shouldRetire (has : Finset String) (pod : Pod) : Bool :=
  decide (pod.Name ∉ has) && (decide (pod.Phase = PodPhase.Succeeded) || decide (pod.Phase = PodPhase.Failed))

/-- The body of the pod loop (main.go 139-207) for one pod of the listing. -/
def reconcilePod (now : Int) (fetch : String → Except String String) (has : Finset String)
    (s : State) (pod : Pod) : Result :=
  if pod.Name ∈ s.InactivePodsSet then .ok s
  else if pod.Name ∉ s.ActivePodsSet then
    logPodInfo fetch pod.Name
      { s with ActivePodsSet := insert pod.Name s.ActivePodsSet,
               ActivePods := s.ActivePods ++ [{ Name := pod.Name, UID := pod.UID,
                                                Status := pod.Phase, Timestamp := now }] }
  else
    match updateStatus now pod s.ActivePods with
    | none => .fatal s "ActivePods mismatch with ActivePodsSet"
    | some (pods, changed) =>
      let s1 : State := { s with ActivePods := pods }
      (if changed then logPodInfo fetch pod.Name s1 else .ok s1).bind fun s2 =>
        if shouldRetire has pod then retire now pod s2 else .ok s2

/-- The pod loop (main.go 138-208), stopping at the first fatal exit. -/
def reconcile (now : Int) (fetch : String → Except String String) (has : Finset String) :
    List Pod → State → Result
  | [], s => .ok s
  | pod :: rest, s => (reconcilePod now fetch has s pod).bind (reconcile now fetch has rest)

/-- What one call of `worker` reads from outside: the clock, the outcome of
the metrics request (an error text or the decoded items), the outcome of the
pod listing, and the outcome of each pod description request. -/
structure Tick where
  now : Int
  metrics : Except String (List PodMetrics)
  pods : Except String (List Pod)
  fetch : String → Except String String

/-- The function `worker` (main.go 111-209). -/
def worker (t : Tick) (s : State) : Result :=
  (cleanup t.now s).bind fun s1 =>
    match t.metrics with
    | .error e => .fatal s1 e
    | .ok items =>
      let r := ingest items s1
      match t.pods with
      | .error e => .fatal r.2 e
      | .ok pods => reconcile t.now t.fetch r.1 pods r.2

/-- The calls of `worker` made by `wait.Forever` (main.go 252), one per tick,
until a fatal exit. -/
def run : List Tick → State → Result
  | [], s => .ok s
  | t :: ts, s => (worker t s).bind (run ts)

/-- The record the status loop leaves in place of `c`. -/
def touched (now : Int) (pod : Pod) (c : PodsInfo) : PodsInfo :=
  if c.Status ≠ pod.Phase then { c with Status := pod.Phase, Timestamp := now } else c

/-- Consistency of the four pod variables: each set holds exactly the names of
its slice, no slice repeats a name, and the slices share no name. -/
structure Inv (s : State) : Prop where
  activeSet : s.ActivePodsSet = (names s.ActivePods).toFinset
  inactiveSet : s.InactivePodsSet = (names s.InactivePods).toFinset
  activeNodup : (names s.ActivePods).Nodup
  inactiveNodup : (names s.InactivePods).Nodup
  apart : ∀ n, n ∈ names s.ActivePods → n ∉ names s.InactivePods

/-- The archive is ordered by timestamp. -/
def ArchiveSorted (s : State) : Prop :=
  s.InactivePods.Pairwise (fun a b => a.Timestamp ≤ b.Timestamp)

/-- No archived timestamp is later than `b`. -/
def ArchiveBefore (b : Int) (s : State) : Prop :=
  ∀ m ∈ s.InactivePods, m.Timestamp ≤ b

/-- Sortedness together with the bound, as one invariant of the archive. -/
def Chrono (b : Int) (s : State) : Prop := ArchiveSorted s ∧ ArchiveBefore b s

/-- The clock readings of the ticks never go back. -/
def NonDecreasing (ts : List Tick) : Prop :=
  (ts.map (fun t => t.now)).Pairwise (fun a b => a ≤ b)

/-- The name "p" followed by the four decimal digits of `i`. -/
def podName (i : Nat) : String :=
  String.mk ['p', Nat.digitChar (i / 1000 % 10), Nat.digitChar (i / 100 % 10),
    Nat.digitChar (i / 10 % 10), Nat.digitChar (i % 10)]

/-- A clock reading a little under 28 hours after time 0. -/
def sampleNow : Int := 100000000000000

/-- An archived record named `podName i` with the given timestamp. -/
def archived (i : Nat) (ts : Int) : PodsInfo :=
  { Name := podName i, UID := "uid", Status := PodPhase.Succeeded, Timestamp := ts }

/-- Five records stamped at times 0..4, outside the window of `sampleNow`. -/
def sampleOld : List PodsInfo := (List.range 5).map (fun i => archived i i)

/-- Records 6..1001, stamped 25 hours after time 0 and later, inside the window
of `sampleNow`. -/
def sampleRecent : List PodsInfo :=
  (List.range 996).map (fun i => archived (i + 5) (90000000000000 + i))

/-- Scenario C: 1001 archived records, the oldest 5 outside the window. -/
def scenarioC : State :=
  { State.init with InactivePods := sampleOld ++ sampleRecent,
                    InactivePodsSet := rebuildSet (sampleOld ++ sampleRecent) }

/-- 1001 records stamped at times 0..1000, all outside the window of `sampleNow`. -/
def sampleAllOld : List PodsInfo := (List.range 1001).map (fun i => archived i i)

/-- Scenario D: 1001 archived records, none inside the window of `sampleNow`. -/
def scenarioD : State :=
  { State.init with InactivePods := sampleAllOld, InactivePodsSet := rebuildSet sampleAllOld }

/-- A fetch of the pod description that always succeeds. -/
def okFetch : String → Except String String := fun n => .ok ("raw:" ++ n)

/-- Scenario A, first tick: `p1` is listed as Pending, no metrics. -/
def tickA1 : Tick :=
  { now := 10, metrics := .ok [], pods := .ok [⟨"p1", "u1", PodPhase.Pending⟩], fetch := okFetch }

/-- Scenario A, second tick: `p1` is listed as Running, no metrics. -/
def tickA2 : Tick :=
  { now := 20, metrics := .ok [], pods := .ok [⟨"p1", "u1", PodPhase.Running⟩], fetch := okFetch }

/-- Scenario A, third tick: `p1` is listed as Succeeded, no metrics. -/
def tickA3 : Tick :=
  { now := 30, metrics := .ok [], pods := .ok [⟨"p1", "u1", PodPhase.Succeeded⟩], fetch := okFetch }

/-- The states the variables can be in between two steps of the program: the
initial state, and any state left by a `cleanup` that returns, by the metrics
loop, or by the pod loop body when it returns. -/
inductive Reachable : State → Prop where
  | init : Reachable State.init
  | cleanup {now : Int} {s s' : State} : Reachable s → cleanup now s = .ok s' → Reachable s'
  | ingest {items : List PodMetrics} {s : State} : Reachable s → Reachable (ingest items s).2
  | pod {now : Int} {fetch : String → Except String String} {has : Finset String}
      {s s' : State} {p : Pod} :
      Reachable s → reconcilePod now fetch has s p = .ok s' → Reachable s'

/-- The lines `logPodInfo` adds for a tracked record `c`: one raw description
when the listed phase differs from the stored status, none otherwise. -/
def statusLines (pod : Pod) (c : PodsInfo) (raw : String) : List LogLine :=
  if c.Status = pod.Phase then [] else [LogLine.podRaw raw]

/-- The variables after the first two ticks of Scenario A: `p1` is tracked as
Running since time 20. -/
def stateA2 : State := (run [tickA1, tickA2] State.init).state

/-- Scenario B: `p2` is listed as Succeeded and the metrics snapshot has a
sample for it. -/
def tickB : Tick :=
  { now := 10, metrics := .ok [⟨"p2", "default", 9, "30s", []⟩],
    pods := .ok [⟨"p2", "u2", PodPhase.Succeeded⟩], fetch := okFetch }

/-- A later tick: `p2` is still listed as Succeeded and has no metrics any more. -/
def tickB2 : Tick :=
  { now := 50, metrics := .ok [], pods := .ok [⟨"p2", "u2", PodPhase.Succeeded⟩], fetch := okFetch }

/-- The variables after Scenario B's tick: `p2` is tracked as Succeeded since
time 10. -/
def stateB : State := (run [tickB] State.init).state

/-- The listing entry of pod `podName i`, phase Succeeded. -/
def done (i : Nat) : Pod := { Name := podName i, UID := "uid", Phase := PodPhase.Succeeded }

/-- The record made from a listing entry at clock reading `now` (main.go 148-153, 185-190). -/
def recordOf (now : Int) (p : Pod) : PodsInfo :=
  { Name := p.Name, UID := p.UID, Status := p.Phase, Timestamp := now }

/-- The pods `p0002` .. `p1000`, Succeeded. -/
def fleetRest : List Pod := (List.range 999).map (fun i => done (i + 2))

/-- The 1001 pods `p0000` .. `p1000`, Succeeded. -/
def fleet : List Pod := done 0 :: done 1 :: fleetRest

/-- Eviction run, tick 1 at time 0: the 1001 pods are listed, no metrics. -/
def tickE1 : Tick := { now := 0, metrics := .ok [], pods := .ok fleet, fetch := okFetch }

/-- Eviction run, tick 2 at time 0: only `p0000` is listed, no metrics. -/
def tickE2 : Tick := { now := 0, metrics := .ok [], pods := .ok [done 0], fetch := okFetch }

/-- Eviction run, tick 3 at `sampleNow`: `p0001` .. `p1000` are listed, no metrics. -/
def tickE3 : Tick :=
  { now := sampleNow, metrics := .ok [], pods := .ok (done 1 :: fleetRest), fetch := okFetch }

/-- Eviction run, tick 4 at `sampleNow`: `p0000` is listed again, as Running. -/
def tickE4 : Tick :=
  { now := sampleNow, metrics := .ok [],
    pods := .ok [{ Name := podName 0, UID := "uid", Phase := PodPhase.Running }], fetch := okFetch }

/-- A tick whose pod listing names `p1` twice: first as Pending, then as Succeeded. -/
def tickTwice : Tick :=
  { now := 10, metrics := .ok [],
    pods := .ok [⟨"p1", "u1", PodPhase.Pending⟩, ⟨"p1", "u1", PodPhase.Succeeded⟩],
    fetch := okFetch }

/-- Exactly `InactivePodsThresholdCnt` records, stamped at times 0..999, all
outside the window of `sampleNow`. -/
def sampleFull : List PodsInfo := (List.range 1000).map (fun i => archived i i)

/-- An archive at the count threshold: 1000 records, none inside the window. -/
def scenarioFull : State :=
  { State.init with InactivePods := sampleFull, InactivePodsSet := rebuildSet sampleFull }

/-- The sample timestamp of a logged metrics line for pod `n`, if the line is one. -/
def sampleTime (n : String) : LogLine → Option Int
  | .metrics m => if m.Name = n then some m.Timestamp else none
  | .podRaw _ => none

/-- The sample timestamps of the metrics lines logged for pod `n`, in the
order in which they were logged. -/
def sampleTimes (n : String) (log : List LogLine) : List Int := log.filterMap (sampleTime n)

/-- The metrics loop run on a sequence of snapshots, one after the other. -/
def ingestAll (snaps : List (List PodMetrics)) (s : State) : State :=
  snaps.foldl (fun st items => (ingest items st).2) s

/-- The stored time for the item's name is at least the item's timestamp. -/
def Covered (s : State) (m : PodMetrics) : Prop :=
  ∃ v, s.LastPodMetricsTime m.Name = some v ∧ m.Timestamp ≤ v

/-- For each name, the logged sample timestamps increase strictly and the last
one is the stored time for the name. -/
def Fresh (s : State) : Prop :=
  ∀ n, (sampleTimes n s.logged).Pairwise (fun a b => a < b) ∧
    s.LastPodMetricsTime n = (sampleTimes n s.logged).getLast?

/-- A metrics sample for `p3` taken at time 7. -/
def sampleP3 : PodMetrics :=
  { Name := "p3", Namespace := "default", Timestamp := 7, Window := "30s",
    Containers := [("main", "10m", "20Mi")] }

/-- A fetch of the pod description that always fails. -/
def badFetch : String → Except String String := fun _ => .error ": connection refused"

/-- The variables after the first tick of Scenario A: `p1` is tracked as
Pending since time 10. -/
def stateA1 : State := (run [tickA1] State.init).state

/-- The records of a slice whose name is not in the given list of names, in order. -/
def unlisted (listed : List String) (l : List PodsInfo) : List PodsInfo :=
  l.filter (fun c => decide (c.Name ∉ listed))

/-- What one pass of the pod loop body leaves alone, for the pod `p` it handles. -/
structure Untouched (listed : List String) (s r : State) : Prop where
  active : unlisted listed r.ActivePods = unlisted listed s.ActivePods
  archive : unlisted listed r.InactivePods = unlisted listed s.InactivePods
  activeSet : ∀ n, n ∉ listed → (n ∈ r.ActivePodsSet ↔ n ∈ s.ActivePodsSet)
  archiveSet : ∀ n, n ∉ listed → (n ∈ r.InactivePodsSet ↔ n ∈ s.InactivePodsSet)

/-- The names of the first slice that are not names of the archive, in order. -/
def notArchived (old : List String) (archive : List PodsInfo) : List String :=
  old.filter (fun n => decide (n ∉ names archive))

/-- The names of ActivePods are the old names that have not been archived, in
their old order, followed by names that were not among the old ones. -/
def OrderExact (old : List String) (st : State) : Prop :=
  ∃ added, names st.ActivePods = notArchived old st.InactivePods ++ added ∧
    ∀ n ∈ added, n ∉ old

/-- A tick that lists `p1`, `p2`, `p3` as Running, no metrics. -/
def tickThree : Tick :=
  { now := 10, metrics := .ok [],
    pods := .ok [⟨"p1", "u1", PodPhase.Running⟩, ⟨"p2", "u2", PodPhase.Running⟩,
                 ⟨"p3", "u3", PodPhase.Running⟩],
    fetch := okFetch }

/-- The variables after `tickThree`: `p1`, `p2`, `p3` are tracked, in this order. -/
def stateThree : State := (run [tickThree] State.init).state

/-- What one pass of the loop body does to the names of the two slices. -/
inductive NameStep (p : String) (s r : State) : Prop where
  | same : names r.ActivePods = names s.ActivePods →
      names r.InactivePods = names s.InactivePods → NameStep p s r
  | added : names r.ActivePods = names s.ActivePods ++ [p] →
      names r.InactivePods = names s.InactivePods →
      p ∉ names s.ActivePods → p ∉ names s.InactivePods → NameStep p s r
  | moved : names r.ActivePods = (names s.ActivePods).erase p →
      names r.InactivePods = names s.InactivePods ++ [p] →
      p ∈ names s.ActivePods → NameStep p s r

/-- A listing that names `p2` as Succeeded and the new pod `p9` as Pending. -/
def listingTwo : List Pod := [⟨"p2", "u2", PodPhase.Succeeded⟩, ⟨"p9", "u9", PodPhase.Pending⟩]

/-! ## Shared lemmas -/

theorem names_append (a b : List PodsInfo) : names (a ++ b) = names a ++ names b := by
  simp [names]

theorem names_cons (c : PodsInfo) (l : List PodsInfo) : names (c :: l) = c.Name :: names l := rfl

theorem rebuildSet_fold (l : List PodsInfo) (acc : Finset String) :
    l.foldl (fun acc m => insert m.Name acc) acc = acc ∪ (names l).toFinset := by
  induction l generalizing acc with
  | nil => simp [names]
  | cons c cs ih =>
    simp only [List.foldl_cons, ih, names_cons, List.toFinset_cons]
    ext n
    simp only [Finset.mem_union, Finset.mem_insert]
    tauto

theorem rebuildSet_eq (l : List PodsInfo) : rebuildSet l = (names l).toFinset := by
  simp [rebuildSet, rebuildSet_fold]

theorem indexOfName_none {name : String} {l : List PodsInfo} :
    indexOfName name l = none ↔ name ∉ names l := by
  induction l with
  | nil => simp [indexOfName, names]
  | cons c cs ih =>
    by_cases hc : c.Name = name
    · simp [indexOfName, hc, names_cons]
    · have hc2 : ¬ name = c.Name := fun h => hc h.symm
      simp [indexOfName, hc, hc2, names_cons, ih]

theorem indexOfName_some {name : String} {l : List PodsInfo} {pos : Nat}
    (h : indexOfName name l = some pos) :
    ∃ pre c post, l = pre ++ c :: post ∧ c.Name = name ∧ name ∉ names pre ∧ pos = pre.length := by
  induction l generalizing pos with
  | nil => simp [indexOfName] at h
  | cons c cs ih =>
    by_cases hc : c.Name = name
    · simp [indexOfName, hc] at h
      exact ⟨[], c, cs, rfl, hc, by simp [names], by simp [h]⟩
    · simp only [indexOfName, hc, if_false, Option.map_eq_some'] at h
      obtain ⟨p, hp, rfl⟩ := h
      obtain ⟨pre, d, post, rfl, hd, hpre, rfl⟩ := ih hp
      refine ⟨c :: pre, d, post, rfl, hd, ?_, rfl⟩
      simp only [names_cons, List.mem_cons, not_or]
      exact ⟨fun h => hc h.symm, hpre⟩

theorem take_drop_split (pre : List PodsInfo) (c : PodsInfo) (post : List PodsInfo) :
    (pre ++ c :: post).take pre.length ++ (pre ++ c :: post).drop (pre.length + 1) = pre ++ post := by
  simp [List.take_append_eq_append_take, List.drop_append_eq_append_drop]

theorem updateStatus_none {now : Int} {pod : Pod} {l : List PodsInfo} :
    updateStatus now pod l = none ↔ pod.Name ∉ names l := by
  induction l with
  | nil => simp [updateStatus, names]
  | cons c cs ih =>
    by_cases hc : c.Name = pod.Name
    · by_cases hs : c.Status = pod.Phase <;> simp [updateStatus, hc, hs, names_cons]
    · have hc2 : ¬ pod.Name = c.Name := fun h => hc h.symm
      simp [updateStatus, hc, hc2, names_cons, ih]

theorem updateStatus_some {now : Int} {pod : Pod} {l : List PodsInfo} {r : List PodsInfo × Bool}
    (h : updateStatus now pod l = some r) :
    ∃ pre c post, l = pre ++ c :: post ∧ c.Name = pod.Name ∧ pod.Name ∉ names pre ∧
      r = (pre ++ touched now pod c :: post, decide (c.Status ≠ pod.Phase)) := by
  induction l generalizing r with
  | nil => simp [updateStatus] at h
  | cons c cs ih =>
    by_cases hc : c.Name = pod.Name
    · refine ⟨[], c, cs, rfl, hc, by simp [names], ?_⟩
      by_cases hs : c.Status = pod.Phase
      · simp [updateStatus, hc, hs] at h
        simp [touched, hs, ← h]
      · simp [updateStatus, hc, hs] at h
        simp [touched, hs, ← h, hc]
    · simp only [updateStatus, hc, if_false, Option.map_eq_some'] at h
      obtain ⟨p, hp, rfl⟩ := h
      obtain ⟨pre, d, post, rfl, hd, hpre, rfl⟩ := ih hp
      refine ⟨c :: pre, d, post, rfl, hd, ?_, rfl⟩
      simp only [names_cons, List.mem_cons, not_or]
      exact ⟨fun h => hc h.symm, hpre⟩

theorem touched_name (now : Int) (pod : Pod) (c : PodsInfo) : (touched now pod c).Name = c.Name := by
  unfold touched; split <;> rfl



theorem Inv_init : Inv State.init := by
  constructor <;> simp [State.init, names]

theorem Inv_bind {r : Result} {f : State → Result} (hr : Inv r.state)
    (hf : ∀ s, r = .ok s → Inv s → Inv (f s).state) : Inv (r.bind f).state := by
  cases r with
  | ok s => exact hf s rfl hr
  | fatal s msg => exact hr

theorem names_updated (now : Int) (pod : Pod) (pre : List PodsInfo) (c : PodsInfo)
    (post : List PodsInfo) :
    names (pre ++ touched now pod c :: post) = names (pre ++ c :: post) := by
  simp [names_append, names_cons, touched_name]

theorem logPodInfo_fields (fetch : String → Except String String) (name : String) (s : State) :
    (logPodInfo fetch name s).state.ActivePods = s.ActivePods ∧
    (logPodInfo fetch name s).state.InactivePods = s.InactivePods ∧
    (logPodInfo fetch name s).state.ActivePodsSet = s.ActivePodsSet ∧
    (logPodInfo fetch name s).state.InactivePodsSet = s.InactivePodsSet ∧
    (logPodInfo fetch name s).state.LastPodMetricsTime = s.LastPodMetricsTime := by
  unfold logPodInfo
  cases fetch name <;> simp [Result.state]

theorem Inv_of_fields {s s' : State} (h : Inv s) (h1 : s'.ActivePods = s.ActivePods)
    (h2 : s'.InactivePods = s.InactivePods) (h3 : s'.ActivePodsSet = s.ActivePodsSet)
    (h4 : s'.InactivePodsSet = s.InactivePodsSet) : Inv s' := by
  constructor
  · rw [h3, h1]; exact h.activeSet
  · rw [h4, h2]; exact h.inactiveSet
  · rw [h1]; exact h.activeNodup
  · rw [h2]; exact h.inactiveNodup
  · rw [h1, h2]; exact h.apart

theorem Inv_logPodInfo {fetch : String → Except String String} {name : String} {s : State}
    (h : Inv s) : Inv (logPodInfo fetch name s).state := by
  obtain ⟨h1, h2, h3, h4, _⟩ := logPodInfo_fields fetch name s
  exact Inv_of_fields h h1 h2 h3 h4

theorem Inv_cleanup {now : Int} {s : State} (h : Inv s) : Inv (cleanup now s).state := by
  unfold cleanup
  split
  · split
    · exact h
    · rename_i pos _
      have hsub : (names (s.InactivePods.drop (pos + 1))).Sublist (names s.InactivePods) :=
        (List.drop_sublist _ _).map _
      constructor
      · exact h.activeSet
      · simp [Result.state, rebuildSet_eq]
      · exact h.activeNodup
      · exact h.inactiveNodup.sublist hsub
      · intro n hn hn2
        exact h.apart n hn (hsub.subset hn2)
  · exact h

theorem Inv_retire {now : Int} {pod : Pod} {s : State} (h : Inv s)
    (hin : pod.Name ∉ names s.InactivePods) : Inv (retire now pod s).state := by
  cases hidx : indexOfName pod.Name s.ActivePods with
  | none =>
    have hno : pod.Name ∉ names s.ActivePods := indexOfName_none.mp hidx
    simp only [retire, hidx, Result.state]
    constructor
    · simp only [h.activeSet]
      exact Finset.erase_eq_of_not_mem (by simpa using hno)
    · simp [h.inactiveSet, names_append, names_cons, names]
      ext n; simp [Finset.mem_union, or_comm]
    · exact h.activeNodup
    · simp only [names_append]
      refine List.Nodup.append h.inactiveNodup (by simp [names]) ?_
      simp [names, List.disjoint_singleton]
      simpa [names] using hin
    · intro n hn
      simp only [names_append, List.mem_append, not_or]
      refine ⟨h.apart n hn, ?_⟩
      simp [names]
      rintro rfl
      exact hno hn
  | some pos =>
    obtain ⟨pre, c, post, hl, hc, hpre, rfl⟩ := indexOfName_some hidx
    simp only [retire, hidx, Result.state]
    have hnd := h.activeNodup
    rw [hl, names_append, names_cons] at hnd
    have hpost : pod.Name ∉ names post := by
      have := (List.nodup_append.mp hnd).2.1
      rw [hc] at this
      exact (List.nodup_cons.mp this).1
    rw [hl, take_drop_split]
    constructor
    · simp only [h.activeSet, hl]
      ext n
      simp only [Finset.mem_erase, List.mem_toFinset, names_append, names_cons, List.mem_append,
        List.mem_cons, hc]
      constructor
      · rintro ⟨hne, h1 | h1 | h1⟩
        · exact Or.inl h1
        · exact absurd h1 hne
        · exact Or.inr h1
      · rintro (h1 | h1)
        · exact ⟨fun e => hpre (e ▸ h1), Or.inl h1⟩
        · exact ⟨fun e => hpost (e ▸ h1), Or.inr (Or.inr h1)⟩
    · simp [h.inactiveSet, names_append, names_cons, names]
      ext n; simp [Finset.mem_union, or_comm]
    · simp only [names_append]
      have h1 := List.nodup_append.mp hnd
      refine List.Nodup.append h1.1 (List.nodup_cons.mp h1.2.1).2 ?_
      intro a ha hb
      exact h1.2.2 ha (List.mem_cons_of_mem _ hb)
    · simp only [names_append]
      refine List.Nodup.append h.inactiveNodup (by simp [names]) ?_
      simp [names, List.disjoint_singleton]
      simpa [names] using hin
    · intro n hn
      simp only [names_append, List.mem_append, not_or]
      have hn' : n ∈ names s.ActivePods := by
        rw [hl, names_append, names_cons]
        rw [names_append] at hn
        rcases List.mem_append.mp hn with h1 | h1
        · exact List.mem_append_left _ h1
        · exact List.mem_append_right _ (List.mem_cons_of_mem _ h1)
      refine ⟨h.apart n hn', ?_⟩
      simp [names]
      rintro rfl
      rw [names_append] at hn
      rcases List.mem_append.mp hn with h1 | h1
      · exact hpre h1
      · exact hpost h1



theorem Inv_firstSeen {now : Int} {pod : Pod} {s : State} (h : Inv s)
    (h1 : pod.Name ∉ s.InactivePodsSet) (h2 : pod.Name ∉ s.ActivePodsSet) :
    Inv { s with ActivePodsSet := insert pod.Name s.ActivePodsSet,
                 ActivePods := s.ActivePods ++ [{ Name := pod.Name, UID := pod.UID,
                                                  Status := pod.Phase, Timestamp := now }] } := by
  have h1' : pod.Name ∉ names s.InactivePods := by
    rw [h.inactiveSet] at h1; simpa using h1
  have h2' : pod.Name ∉ names s.ActivePods := by
    rw [h.activeSet] at h2; simpa using h2
  constructor
  · simp only [h.activeSet, names_append]
    ext n; simp [names, or_comm]
  · exact h.inactiveSet
  · simp only [names_append]
    refine List.Nodup.append h.activeNodup (by simp [names]) ?_
    simp [names, List.disjoint_singleton]
    simpa [names] using h2'
  · exact h.inactiveNodup
  · intro n hn
    simp only [names_append, List.mem_append] at hn
    rcases hn with hn | hn
    · exact h.apart n hn
    · simp [names] at hn
      subst hn
      exact h1'

theorem Inv_reconcilePod {now : Int} {fetch : String → Except String String}
    {has : Finset String} {s : State} {pod : Pod} (h : Inv s) :
    Inv (reconcilePod now fetch has s pod).state := by
  unfold reconcilePod
  split
  · exact h
  · rename_i h1
    split
    · rename_i h2
      exact Inv_logPodInfo (Inv_firstSeen h h1 h2)
    · cases hu : updateStatus now pod s.ActivePods with
      | none => exact h
      | some r =>
        obtain ⟨pre, c, post, hl, hc, hpre, rfl⟩ := updateStatus_some hu
        have hs1 : Inv { s with ActivePods := pre ++ touched now pod c :: post } := by
          have hn : names (pre ++ touched now pod c :: post) = names s.ActivePods := by
            rw [hl]; exact names_updated now pod pre c post
          constructor
          · simp only [hn]; exact h.activeSet
          · exact h.inactiveSet
          · simp only [hn]; exact h.activeNodup
          · exact h.inactiveNodup
          · simp only [hn]; exact h.apart
        have h1' : pod.Name ∉ names s.InactivePods := by
          rw [h.inactiveSet] at h1; simpa using h1
        simp only
        apply Inv_bind
        · split
          · exact Inv_logPodInfo hs1
          · exact hs1
        · intro s2 hs2 hI
          split
          · apply Inv_retire hI
            have : s2.InactivePods = s.InactivePods := by
              split at hs2
              · have := (logPodInfo_fields fetch pod.Name
                  { s with ActivePods := pre ++ touched now pod c :: post }).2.1
                rw [hs2] at this
                exact this
              · cases hs2; rfl
            rw [this]; exact h1'
          · exact hI

theorem Inv_reconcile {now : Int} {fetch : String → Except String String}
    {has : Finset String} (pods : List Pod) {s : State} (h : Inv s) :
    Inv (reconcile now fetch has pods s).state := by
  induction pods generalizing s with
  | nil => exact h
  | cons pod rest ih =>
    simp only [reconcile]
    exact Inv_bind (Inv_reconcilePod h) (fun s' _ hs' => ih hs')

theorem ingestItem_fields (acc : Finset String × State) (m : PodMetrics) :
    (ingestItem acc m).2.ActivePods = acc.2.ActivePods ∧
    (ingestItem acc m).2.InactivePods = acc.2.InactivePods ∧
    (ingestItem acc m).2.ActivePodsSet = acc.2.ActivePodsSet ∧
    (ingestItem acc m).2.InactivePodsSet = acc.2.InactivePodsSet := by
  unfold ingestItem
  simp only
  split
  · simp
  · split <;> simp

theorem ingest_fold_fields (items : List PodMetrics) (acc : Finset String × State) :
    (items.foldl ingestItem acc).2.ActivePods = acc.2.ActivePods ∧
    (items.foldl ingestItem acc).2.InactivePods = acc.2.InactivePods ∧
    (items.foldl ingestItem acc).2.ActivePodsSet = acc.2.ActivePodsSet ∧
    (items.foldl ingestItem acc).2.InactivePodsSet = acc.2.InactivePodsSet := by
  induction items generalizing acc with
  | nil => simp
  | cons m ms ih =>
    simp only [List.foldl_cons]
    obtain ⟨a, b, c, d⟩ := ih (ingestItem acc m)
    obtain ⟨a', b', c', d'⟩ := ingestItem_fields acc m
    exact ⟨a.trans a', b.trans b', c.trans c', d.trans d'⟩

theorem ingest_fields (items : List PodMetrics) (s : State) :
    (ingest items s).2.ActivePods = s.ActivePods ∧
    (ingest items s).2.InactivePods = s.InactivePods ∧
    (ingest items s).2.ActivePodsSet = s.ActivePodsSet ∧
    (ingest items s).2.InactivePodsSet = s.InactivePodsSet :=
  ingest_fold_fields items (∅, s)

theorem Inv_ingest {items : List PodMetrics} {s : State} (h : Inv s) : Inv (ingest items s).2 := by
  obtain ⟨a, b, c, d⟩ := ingest_fields items s
  exact Inv_of_fields h a b c d

theorem Inv_worker {t : Tick} {s : State} (h : Inv s) : Inv (worker t s).state := by
  unfold worker
  apply Inv_bind (Inv_cleanup h)
  intro s1 _ hs1
  split
  · exact hs1
  · simp only
    split
    · exact Inv_ingest hs1
    · exact Inv_reconcile _ (Inv_ingest hs1)

theorem Inv_run (ts : List Tick) {s : State} (h : Inv s) : Inv (run ts s).state := by
  induction ts generalizing s with
  | nil => exact h
  | cons t rest ih =>
    simp only [run]
    exact Inv_bind (Inv_worker h) (fun s' _ hs' => ih hs')

theorem firstInWindow_none {now : Int} {l : List PodsInfo} :
    firstInWindow now l = none ↔ ∀ m ∈ l, inWindow now m = false := by
  induction l with
  | nil => simp [firstInWindow]
  | cons c cs ih =>
    by_cases hc : inWindow now c = true
    · simp [firstInWindow, hc]
    · simp only [Bool.not_eq_true] at hc
      simp [firstInWindow, hc, ih]

theorem firstInWindow_some {now : Int} {l : List PodsInfo} {pos : Nat}
    (h : firstInWindow now l = some pos) :
    ∃ pre e post, l = pre ++ e :: post ∧ inWindow now e = true ∧
      (∀ m ∈ pre, inWindow now m = false) ∧ pos = pre.length := by
  induction l generalizing pos with
  | nil => simp [firstInWindow] at h
  | cons c cs ih =>
    by_cases hc : inWindow now c = true
    · simp [firstInWindow, hc] at h
      exact ⟨[], c, cs, rfl, hc, by simp, by simp [h]⟩
    · simp only [Bool.not_eq_true] at hc
      simp only [firstInWindow, hc, Bool.false_eq_true, if_false, Option.map_eq_some'] at h
      obtain ⟨p, hp, rfl⟩ := h
      obtain ⟨pre, d, post, rfl, hd, hpre, rfl⟩ := ih hp
      refine ⟨c :: pre, d, post, rfl, hd, ?_, rfl⟩
      intro m hm
      rcases List.mem_cons.mp hm with rfl | hm
      · exact hc
      · exact hpre m hm

theorem firstInWindow_split {now : Int} (pre : List PodsInfo) (e : PodsInfo) (post : List PodsInfo)
    (hpre : ∀ m ∈ pre, inWindow now m = false) (he : inWindow now e = true) :
    firstInWindow now (pre ++ e :: post) = some pre.length := by
  induction pre with
  | nil => simp [firstInWindow, he]
  | cons c cs ih =>
    have hc : inWindow now c = false := hpre c (List.mem_cons_self _ _)
    have := ih (fun m hm => hpre m (List.mem_cons_of_mem _ hm))
    simp [firstInWindow, hc, this]

theorem drop_split (pre : List PodsInfo) (e : PodsInfo) (post : List PodsInfo) :
    (pre ++ e :: post).drop (pre.length + 1) = post := by
  simp [List.drop_append_eq_append_drop]

theorem cleanup_small {now : Int} {s : State}
    (h : s.InactivePods.length ≤ InactivePodsThresholdCnt) : cleanup now s = .ok s := by
  unfold cleanup
  rw [if_neg (by omega)]

theorem cleanup_split {now : Int} {s : State} (pre : List PodsInfo) (e : PodsInfo)
    (post : List PodsInfo) (hl : s.InactivePods = pre ++ e :: post)
    (hlen : InactivePodsThresholdCnt < s.InactivePods.length)
    (hpre : ∀ m ∈ pre, inWindow now m = false) (he : inWindow now e = true) :
    cleanup now s = .ok { s with InactivePods := post, InactivePodsSet := rebuildSet post } := by
  unfold cleanup
  rw [if_pos hlen]
  have h1 : firstInWindow now s.InactivePods = some pre.length := by
    rw [hl]; exact firstInWindow_split pre e post hpre he
  simp only [h1]
  rw [hl, drop_split]

theorem Chrono_mono {b c : Int} {s : State} (h : Chrono b s) (hbc : b ≤ c) : Chrono c s :=
  ⟨h.1, fun m hm => le_trans (h.2 m hm) hbc⟩

theorem Chrono_of_archive {b : Int} {s s' : State} (h : Chrono b s)
    (h2 : s'.InactivePods = s.InactivePods) : Chrono b s' := by
  unfold Chrono ArchiveSorted ArchiveBefore at *
  rw [h2]; exact h

theorem Chrono_bind {b : Int} {r : Result} {f : State → Result} (hr : Chrono b r.state)
    (hf : ∀ s, r = .ok s → Chrono b s → Chrono b (f s).state) : Chrono b (r.bind f).state := by
  cases r with
  | ok s => exact hf s rfl hr
  | fatal s msg => exact hr

theorem Chrono_cleanup {b now : Int} {s : State} (h : Chrono b s) :
    Chrono b (cleanup now s).state := by
  unfold cleanup
  split
  · split
    · exact h
    · rename_i pos _
      exact ⟨h.1.sublist (List.drop_sublist _ _),
        fun m hm => h.2 m ((List.drop_sublist _ _).subset hm)⟩
  · exact h

theorem Chrono_retire {now : Int} {pod : Pod} {s : State} (h : Chrono now s) :
    Chrono now (retire now pod s).state := by
  have key : Chrono now { s with InactivePods := s.InactivePods ++
      [{ Name := pod.Name, UID := pod.UID, Status := pod.Phase, Timestamp := now }] } := by
    constructor
    · unfold ArchiveSorted
      simp only [List.pairwise_append, List.pairwise_cons, List.mem_singleton]
      refine ⟨h.1, ⟨by simp, List.Pairwise.nil⟩, ?_⟩
      intro a ha b hb
      subst hb
      exact h.2 a ha
    · intro m hm
      simp only [List.mem_append, List.mem_singleton] at hm
      rcases hm with hm | rfl
      · exact h.2 m hm
      · exact le_refl _
  cases hidx : indexOfName pod.Name s.ActivePods with
  | none =>
    simp only [retire, hidx, Result.state]
    exact Chrono_of_archive key rfl
  | some pos =>
    simp only [retire, hidx, Result.state]
    exact Chrono_of_archive key rfl

theorem Chrono_logPodInfo {b : Int} {fetch : String → Except String String} {name : String}
    {s : State} (h : Chrono b s) : Chrono b (logPodInfo fetch name s).state :=
  Chrono_of_archive h (logPodInfo_fields fetch name s).2.1

theorem Chrono_reconcilePod {now : Int} {fetch : String → Except String String}
    {has : Finset String} {s : State} {pod : Pod} (h : Chrono now s) :
    Chrono now (reconcilePod now fetch has s pod).state := by
  unfold reconcilePod
  split
  · exact h
  · split
    · exact Chrono_logPodInfo (Chrono_of_archive h rfl)
    · cases hu : updateStatus now pod s.ActivePods with
      | none => exact h
      | some r =>
        obtain ⟨l, changed⟩ := r
        simp only
        apply Chrono_bind
        · split
          · exact Chrono_logPodInfo (Chrono_of_archive h rfl)
          · exact Chrono_of_archive h rfl
        · intro s2 _ hs2
          split
          · exact Chrono_retire hs2
          · exact hs2

theorem Chrono_reconcile {now : Int} {fetch : String → Except String String}
    {has : Finset String} (pods : List Pod) {s : State} (h : Chrono now s) :
    Chrono now (reconcile now fetch has pods s).state := by
  induction pods generalizing s with
  | nil => exact h
  | cons pod rest ih =>
    simp only [reconcile]
    exact Chrono_bind (Chrono_reconcilePod h) (fun s' _ hs' => ih hs')

theorem Chrono_worker {t : Tick} {s : State} (h : Chrono t.now s) :
    Chrono t.now (worker t s).state := by
  unfold worker
  apply Chrono_bind (Chrono_cleanup h)
  intro s1 _ hs1
  split
  · exact hs1
  · simp only
    split
    · exact Chrono_of_archive hs1 (ingest_fields _ s1).2.1
    · exact Chrono_reconcile _ (Chrono_of_archive hs1 (ingest_fields _ s1).2.1)

theorem Chrono_run (ts : List Tick) {s : State} {b c : Int} (h : Chrono b s)
    (hm : NonDecreasing ts) (hb : ∀ t ∈ ts, b ≤ t.now) (hc : ∀ t ∈ ts, t.now ≤ c) (hbc : b ≤ c) :
    Chrono c (run ts s).state := by
  induction ts generalizing s b with
  | nil => exact Chrono_mono h hbc
  | cons t rest ih =>
    simp only [run]
    have ht : b ≤ t.now := hb t (List.mem_cons_self _ _)
    have hm' : NonDecreasing rest := by
      unfold NonDecreasing at hm ⊢
      simp only [List.map_cons, List.pairwise_cons] at hm
      exact hm.2
    have hrest : ∀ u ∈ rest, t.now ≤ u.now := by
      unfold NonDecreasing at hm
      simp only [List.map_cons, List.pairwise_cons, List.mem_map, forall_exists_index, and_imp,
        forall_apply_eq_imp_iff₂] at hm
      exact hm.1
    have hw : Chrono t.now (worker t s).state := Chrono_worker (Chrono_mono h ht)
    cases hr : worker t s with
    | ok s1 =>
      rw [hr] at hw
      exact ih hw hm' hrest (fun u hu => hc u (List.mem_cons_of_mem _ hu))
        (hc t (List.mem_cons_self _ _))
    | fatal s1 msg =>
      rw [hr] at hw
      exact Chrono_mono hw (hc t (List.mem_cons_self _ _))

theorem inWindow_iff {now : Int} {m : PodsInfo} :
    inWindow now m = true ↔ now - InactivePodsThresholdTime < m.Timestamp := by
  simp [inWindow]

theorem inWindow_false_iff {now : Int} {m : PodsInfo} :
    inWindow now m = false ↔ m.Timestamp ≤ now - InactivePodsThresholdTime := by
  simp [inWindow]

theorem cleanup_found {now : Int} {s : State} {pos : Nat}
    (hlen : InactivePodsThresholdCnt < s.InactivePods.length)
    (hpos : firstInWindow now s.InactivePods = some pos) :
    cleanup now s = .ok { s with InactivePods := s.InactivePods.drop (pos + 1),
                                 InactivePodsSet := rebuildSet (s.InactivePods.drop (pos + 1)) } := by
  unfold cleanup
  rw [if_pos hlen]
  simp only [hpos]

theorem cleanup_none {now : Int} {s : State}
    (hlen : InactivePodsThresholdCnt < s.InactivePods.length)
    (hpos : firstInWindow now s.InactivePods = none) :
    cleanup now s = .fatal s "InactivePodsThresholdCnt and InactivePodsThresholdTime mismatch" := by
  unfold cleanup
  rw [if_pos hlen]
  simp only [hpos]

theorem sampleOld_out : ∀ m ∈ sampleOld, inWindow sampleNow m = false := by
  intro m hm
  simp only [sampleOld, List.mem_map, List.mem_range] at hm
  obtain ⟨i, hi, rfl⟩ := hm
  rw [inWindow_false_iff]
  simp only [archived, sampleNow, InactivePodsThresholdTime]
  omega

theorem sampleRecent_in : ∀ m ∈ sampleRecent, inWindow sampleNow m = true := by
  intro m hm
  simp only [sampleRecent, List.mem_map, List.mem_range] at hm
  obtain ⟨i, hi, rfl⟩ := hm
  rw [inWindow_iff]
  simp only [archived, sampleNow, InactivePodsThresholdTime]
  omega

theorem sampleRecent_eq :
    sampleRecent = archived 5 90000000000000 ::
      (List.range 995).map (fun i => archived (i + 6) (90000000000001 + i)) := by
  unfold sampleRecent
  rw [List.range_succ_eq_map]
  simp only [List.map_cons, List.map_map]
  refine congrArg₂ _ (by simp) ?_
  apply List.map_congr_left
  intro i _
  simp only [Function.comp, archived, Nat.succ_eq_add_one]
  congr 1
  push_cast
  ring

theorem scenarioC_length : scenarioC.InactivePods.length = 1001 := by
  simp [scenarioC, sampleOld, sampleRecent]

theorem scenarioC_first : firstInWindow sampleNow scenarioC.InactivePods = some 5 := by
  have h := @firstInWindow_split sampleNow sampleOld (archived 5 90000000000000)
    ((List.range 995).map (fun i => archived (i + 6) (90000000000001 + i))) sampleOld_out
    (sampleRecent_in _ (by rw [sampleRecent_eq]; exact List.mem_cons_self _ _))
  rw [← sampleRecent_eq] at h
  simpa [scenarioC, sampleOld] using h

/-- C1. In every state reached from the initial empty state by a sequence of
ticks (also the state in which a tick ends the process), no name is in both
ActivePodsSet and InactivePodsSet, and no name occurs in both the ActivePods
and the InactivePods slices. -/
theorem active_archive_disjoint (ts : List Tick) :
    Disjoint (run ts State.init).state.ActivePodsSet (run ts State.init).state.InactivePodsSet ∧
    ∀ n, ¬ (n ∈ names (run ts State.init).state.ActivePods ∧
            n ∈ names (run ts State.init).state.InactivePods) := by
  have h := Inv_run ts Inv_init
  refine ⟨?_, fun n hn => h.apart n hn.1 hn.2⟩
  rw [Finset.disjoint_left, h.activeSet, h.inactiveSet]
  intro n hn hn2
  exact h.apart n (List.mem_toFinset.mp hn) (List.mem_toFinset.mp hn2)

/-- C3 (the code at Scenario C). With 1001 archived records of which the oldest
5 are outside the window and record 6 is inside it, `cleanup` returns without a
fault and keeps records 7..1001 only: record 6, the first one inside the
window, is dropped with the 5 older ones, so 995 records survive and not the
996 of the suffix that begins at record 6. -/
theorem cleanup_scenarioC_drops_six :
    (cleanup sampleNow scenarioC).isOk = true ∧
    (cleanup sampleNow scenarioC).state.InactivePods = scenarioC.InactivePods.drop 6 ∧
    (cleanup sampleNow scenarioC).state.InactivePods.length = 995 ∧
    (cleanup sampleNow scenarioC).state.InactivePods ≠ scenarioC.InactivePods.drop 5 := by
  have hlen : InactivePodsThresholdCnt < scenarioC.InactivePods.length := by
    rw [scenarioC_length]; decide
  have h := cleanup_found hlen scenarioC_first
  have h6 : (scenarioC.InactivePods.drop 6).length = 995 := by
    rw [List.length_drop, scenarioC_length]
  have hs : (cleanup sampleNow scenarioC).state.InactivePods = scenarioC.InactivePods.drop 6 := by
    simp only [h, Result.state]
  refine ⟨by simp only [h, Result.isOk], hs, by rw [hs]; exact h6, ?_⟩
  rw [hs]
  intro heq
  have h5 : (scenarioC.InactivePods.drop 5).length = 996 := by
    rw [List.length_drop, scenarioC_length]
  have := congrArg List.length heq
  rw [h6, h5] at this
  omega

/-- C4 (the code at Scenario C). Record 6 of Scenario C has a timestamp inside
the retention window and is in the archive before `cleanup`; after `cleanup`
it is gone. -/
theorem cleanup_scenarioC_loses_recent :
    inWindow sampleNow (archived 5 90000000000000) = true ∧
    archived 5 90000000000000 ∈ scenarioC.InactivePods ∧
    archived 5 90000000000000 ∉ (cleanup sampleNow scenarioC).state.InactivePods := by
  have hmem : archived 5 90000000000000 ∈ sampleRecent := by
    rw [sampleRecent_eq]; exact List.mem_cons_self _ _
  have hlen : InactivePodsThresholdCnt < scenarioC.InactivePods.length := by
    rw [scenarioC_length]; decide
  refine ⟨sampleRecent_in _ hmem, List.mem_append_right _ hmem, ?_⟩
  have hsplit := @cleanup_split sampleNow scenarioC sampleOld
    (archived 5 90000000000000)
    ((List.range 995).map (fun i => archived (i + 6) (90000000000001 + i)))
    (by rw [← sampleRecent_eq]; rfl) hlen sampleOld_out (sampleRecent_in _ hmem)
  rw [hsplit]
  simp only [Result.state, List.mem_map, List.mem_range, not_exists, not_and]
  intro i _ heq
  have := congrArg PodsInfo.Timestamp heq
  simp only [archived] at this
  omega

/-- C5. In a run from the initial empty state whose clock readings never go
back, a `cleanup` that returns without a fault leaves an archive of at most
`InactivePodsThresholdCnt` records, or one in which every record is inside the
retention window of the tick's clock reading. -/
theorem cleanup_bounded_or_recent (ts : List Tick) (t : Tick) (s s' : State)
    (hmono : NonDecreasing (ts ++ [t])) (hrun : run ts State.init = .ok s)
    (hclean : cleanup t.now s = .ok s') :
    s'.InactivePods.length ≤ InactivePodsThresholdCnt ∨
      ∀ m ∈ s'.InactivePods, inWindow t.now m = true := by
  have hsorted : ArchiveSorted s := by
    cases ts with
    | nil =>
      simp only [run, Result.ok.injEq] at hrun
      subst hrun
      simp [ArchiveSorted, State.init]
    | cons t0 rest =>
      have hm : NonDecreasing (t0 :: rest) := by
        unfold NonDecreasing at hmono ⊢
        rw [List.map_append, List.pairwise_append] at hmono
        exact hmono.1
      have hb : ∀ u ∈ t0 :: rest, t0.now ≤ u.now := by
        intro u hu
        rcases List.mem_cons.mp hu with rfl | hu
        · exact le_refl _
        · unfold NonDecreasing at hm
          simp only [List.map_cons, List.pairwise_cons, List.mem_map, forall_exists_index,
            and_imp, forall_apply_eq_imp_iff₂] at hm
          exact hm.1 u hu
      have hc : ∀ u ∈ t0 :: rest, u.now ≤ t.now := by
        intro u hu
        unfold NonDecreasing at hmono
        rw [List.map_append, List.pairwise_append] at hmono
        exact hmono.2.2 u.now (List.mem_map_of_mem _ hu) t.now (by simp)
      have hinit : Chrono t0.now State.init := by
        constructor
        · simp [ArchiveSorted, State.init]
        · intro m hm; simp [State.init] at hm
      have := Chrono_run (t0 :: rest) hinit hm hb hc (hc t0 (List.mem_cons_self _ _))
      rw [hrun] at this
      exact this.1
  by_cases hlen : s.InactivePods.length ≤ InactivePodsThresholdCnt
  · rw [cleanup_small hlen] at hclean
    cases hclean
    exact Or.inl hlen
  · right
    have hlen' : InactivePodsThresholdCnt < s.InactivePods.length := by omega
    cases hpos : firstInWindow t.now s.InactivePods with
    | none => rw [cleanup_none hlen' hpos] at hclean; cases hclean
    | some pos =>
      obtain ⟨pre, e, post, hl, he, _, rfl⟩ := firstInWindow_some hpos
      rw [cleanup_found hlen' hpos] at hclean
      cases hclean
      simp only
      rw [hl, drop_split]
      intro m hm
      unfold ArchiveSorted at hsorted
      rw [hl, List.pairwise_append] at hsorted
      have hle := (List.pairwise_cons.mp hsorted.2.1).1 m hm
      rw [inWindow_iff] at he ⊢
      omega

/-- C5, non-vacuity: the three ticks of Scenario A followed by a fourth tick. -/
theorem cleanup_bounded_or_recent_witness :
    (run [tickA1, tickA2, tickA3] State.init).state.InactivePods.length ≤ InactivePodsThresholdCnt ∨
      ∀ m ∈ (run [tickA1, tickA2, tickA3] State.init).state.InactivePods,
        inWindow 40 m = true :=
  cleanup_bounded_or_recent [tickA1, tickA2, tickA3]
    { now := 40, metrics := .ok [], pods := .ok [], fetch := okFetch }
    (run [tickA1, tickA2, tickA3] State.init).state
    (run [tickA1, tickA2, tickA3] State.init).state
    (by simp [NonDecreasing, tickA1, tickA2, tickA3]) rfl rfl

/-- C6. When the archive holds more than `InactivePodsThresholdCnt` records and
none of them is inside the retention window, `cleanup` ends in the fault
"InactivePodsThresholdCnt and InactivePodsThresholdTime mismatch" with every
variable, InactivePods and InactivePodsSet included, as it was. -/
theorem cleanup_fault_keeps_archive (now : Int) (s : State)
    (hlen : InactivePodsThresholdCnt < s.InactivePods.length)
    (hold : ∀ m ∈ s.InactivePods, inWindow now m = false) :
    cleanup now s = .fatal s "InactivePodsThresholdCnt and InactivePodsThresholdTime mismatch" :=
  cleanup_none hlen (firstInWindow_none.mpr hold)

theorem scenarioD_archive : scenarioD.InactivePods = sampleAllOld := by
  simp only [scenarioD]

/-- C6, Scenario D: 1001 archived records, all older than the window. -/
theorem cleanup_fault_keeps_archive_witness :
    cleanup sampleNow scenarioD =
      .fatal scenarioD "InactivePodsThresholdCnt and InactivePodsThresholdTime mismatch" :=
  cleanup_fault_keeps_archive sampleNow scenarioD
    (by
      rw [scenarioD_archive, sampleAllOld, List.length_map, List.length_range]; decide)
    (by
      intro m hm
      rw [scenarioD_archive, sampleAllOld] at hm
      simp only [List.mem_map, List.mem_range] at hm
      obtain ⟨i, hi, rfl⟩ := hm
      rw [inWindow_false_iff]
      simp only [archived, sampleNow, InactivePodsThresholdTime]
      omega)

theorem Reachable_inv {s : State} (h : Reachable s) : Inv s := by
  induction h with
  | init => exact Inv_init
  | @cleanup now s s' _ hc ih =>
    have h1 : Inv (PodLifecycleLogger.cleanup now s).state := Inv_cleanup ih
    rw [hc] at h1
    exact h1
  | ingest _ ih => exact Inv_ingest ih
  | @pod now fetch has s s' p _ hp ih =>
    have h1 : Inv (reconcilePod now fetch has s p).state := Inv_reconcilePod ih
    rw [hp] at h1
    exact h1

theorem Reachable_reconcile {now : Int} {fetch : String → Except String String}
    {has : Finset String} (pods : List Pod) {s s' : State} (h : Reachable s)
    (hr : reconcile now fetch has pods s = .ok s') : Reachable s' := by
  induction pods generalizing s with
  | nil =>
    simp only [reconcile, Result.ok.injEq] at hr
    subst hr; exact h
  | cons p rest ih =>
    simp only [reconcile] at hr
    cases hp : reconcilePod now fetch has s p with
    | ok s1 =>
      rw [hp] at hr
      exact ih (Reachable.pod h hp) hr
    | fatal s1 msg =>
      rw [hp] at hr
      simp [Result.bind] at hr

theorem Reachable_worker {t : Tick} {s s' : State} (h : Reachable s)
    (hw : worker t s = .ok s') : Reachable s' := by
  unfold worker at hw
  cases hc : cleanup t.now s with
  | fatal s1 msg => rw [hc] at hw; simp [Result.bind] at hw
  | ok s1 =>
    rw [hc] at hw
    simp only [Result.bind] at hw
    cases hm : t.metrics with
    | error e => rw [hm] at hw; simp at hw
    | ok items =>
      rw [hm] at hw
      simp only at hw
      cases hp : t.pods with
      | error e => rw [hp] at hw; simp at hw
      | ok pods =>
        rw [hp] at hw
        simp only at hw
        exact Reachable_reconcile pods (Reachable.ingest (Reachable.cleanup h hc)) hw

theorem Reachable_run (ts : List Tick) {s s' : State} (h : Reachable s)
    (hr : run ts s = .ok s') : Reachable s' := by
  induction ts generalizing s with
  | nil =>
    simp only [run, Result.ok.injEq] at hr
    subst hr; exact h
  | cons t rest ih =>
    simp only [run] at hr
    cases hw : worker t s with
    | ok s1 =>
      rw [hw] at hr
      exact ih (Reachable_worker h hw) hr
    | fatal s1 msg =>
      rw [hw] at hr
      simp [Result.bind] at hr

theorem updateStatus_split {now : Int} {pod : Pod} (pre : List PodsInfo) (c : PodsInfo)
    (post : List PodsInfo) (hc : c.Name = pod.Name) (hpre : pod.Name ∉ names pre) :
    updateStatus now pod (pre ++ c :: post) =
      some (pre ++ touched now pod c :: post, decide (c.Status ≠ pod.Phase)) := by
  induction pre with
  | nil =>
    by_cases hs : c.Status = pod.Phase <;> simp [updateStatus, hc, hs, touched]
  | cons d ds ih =>
    simp only [names_cons, List.mem_cons, not_or] at hpre
    have hd : ¬ d.Name = pod.Name := fun h => hpre.1 h.symm
    simp [updateStatus, hd, ih hpre.2]

theorem indexOfName_split {name : String} (pre : List PodsInfo) (c : PodsInfo)
    (post : List PodsInfo) (hc : c.Name = name) (hpre : name ∉ names pre) :
    indexOfName name (pre ++ c :: post) = some pre.length := by
  induction pre with
  | nil => simp [indexOfName, hc]
  | cons d ds ih =>
    simp only [names_cons, List.mem_cons, not_or] at hpre
    have hd : ¬ d.Name = name := fun h => hpre.1 h.symm
    simp [indexOfName, hd, ih hpre.2]

theorem split_of_mem {l : List PodsInfo} {c : PodsInfo} (hnd : (names l).Nodup) (hc : c ∈ l) :
    ∃ pre post, l = pre ++ c :: post ∧ c.Name ∉ names pre ∧ c.Name ∉ names post := by
  obtain ⟨pre, post, rfl⟩ := List.append_of_mem hc
  refine ⟨pre, post, rfl, ?_, ?_⟩
  · rw [names_append, names_cons] at hnd
    intro h
    exact (List.nodup_append.mp hnd).2.2 h (List.mem_cons_self _ _)
  · rw [names_append, names_cons] at hnd
    exact (List.nodup_cons.mp (List.nodup_append.mp hnd).2.1).1

theorem reconcilePod_retires {now : Int} {fetch : String → Except String String}
    {has : Finset String} {s : State} {pod : Pod} {raw : String} (hI : Inv s)
    (pre : List PodsInfo) (c : PodsInfo) (post : List PodsInfo)
    (hl : s.ActivePods = pre ++ c :: post) (hc : c.Name = pod.Name)
    (hret : shouldRetire has pod = true) (hf : fetch pod.Name = .ok raw) :
    reconcilePod now fetch has s pod = .ok
      { ActivePods := pre ++ post,
        InactivePods := s.InactivePods ++ [{ Name := pod.Name, UID := pod.UID,
                                              Status := pod.Phase, Timestamp := now }],
        ActivePodsSet := s.ActivePodsSet.erase pod.Name,
        InactivePodsSet := insert pod.Name s.InactivePodsSet,
        LastPodMetricsTime := s.LastPodMetricsTime,
        logged := s.logged ++ statusLines pod c raw } := by
  have hmem : pod.Name ∈ names s.ActivePods := by
    rw [hl, names_append, names_cons, ← hc]; simp
  have h1 : pod.Name ∉ s.InactivePodsSet := by
    rw [hI.inactiveSet, List.mem_toFinset]; exact hI.apart _ hmem
  have h2 : ¬ pod.Name ∉ s.ActivePodsSet := by
    rw [hI.activeSet, List.mem_toFinset]; exact fun h => h hmem
  have hpre : pod.Name ∉ names pre := by
    have hnd := hI.activeNodup
    rw [hl, names_append, names_cons, hc] at hnd
    intro h
    exact (List.nodup_append.mp hnd).2.2 h (List.mem_cons_self _ _)
  unfold reconcilePod
  rw [if_neg h1, if_neg h2, hl, updateStatus_split pre c post hc hpre]
  have hidx : indexOfName pod.Name (pre ++ touched now pod c :: post) = some pre.length :=
    indexOfName_split pre _ post ((touched_name now pod c).trans hc) hpre
  by_cases hs : c.Status = pod.Phase
  · simp [hs, Result.bind, hret, retire, hidx, statusLines, take_drop_split]
  · simp [hs, Result.bind, hret, retire, hidx, statusLines, take_drop_split, logPodInfo, hf]

theorem reconcilePod_firstSeen {now : Int} {fetch : String → Except String String}
    {has : Finset String} {s : State} {pod : Pod} {raw : String}
    (h1 : pod.Name ∉ s.InactivePodsSet) (h2 : pod.Name ∉ s.ActivePodsSet)
    (hf : fetch pod.Name = .ok raw) :
    reconcilePod now fetch has s pod = .ok
      { s with ActivePodsSet := insert pod.Name s.ActivePodsSet,
               ActivePods := s.ActivePods ++ [{ Name := pod.Name, UID := pod.UID,
                                                Status := pod.Phase, Timestamp := now }],
               logged := s.logged ++ [LogLine.podRaw raw] } := by
  unfold reconcilePod
  rw [if_neg h1, if_pos h2]
  simp [logPodInfo, hf]

theorem shouldRetire_iff {has : Finset String} {pod : Pod} :
    shouldRetire has pod = true ↔
      pod.Name ∉ has ∧ (pod.Phase = PodPhase.Succeeded ∨ pod.Phase = PodPhase.Failed) := by
  simp [shouldRetire]

theorem stateA2_reachable : Reachable stateA2 :=
  Reachable_run [tickA1, tickA2] Reachable.init rfl

theorem stateB_reachable : Reachable stateB :=
  Reachable_run [tickB] Reachable.init rfl

/-- C7 as stated fails for a pod seen for the first time: from the initial
state, `p1` listed as Succeeded with no metrics and a successful fetch is put
into ActivePods and ActivePodsSet and nothing is archived. -/
theorem first_seen_terminal_not_retired :
    "p1" ∉ State.init.InactivePodsSet ∧ "p1" ∉ (∅ : Finset String) ∧
    okFetch "p1" = .ok "raw:p1" ∧
    (reconcilePod 10 okFetch ∅ State.init ⟨"p1", "u1", PodPhase.Succeeded⟩).isOk = true ∧
    "p1" ∈ names (reconcilePod 10 okFetch ∅ State.init ⟨"p1", "u1", PodPhase.Succeeded⟩).state.ActivePods ∧
    "p1" ∈ (reconcilePod 10 okFetch ∅ State.init ⟨"p1", "u1", PodPhase.Succeeded⟩).state.ActivePodsSet ∧
    (reconcilePod 10 okFetch ∅ State.init ⟨"p1", "u1", PodPhase.Succeeded⟩).state.InactivePods = [] ∧
    "p1" ∉ (reconcilePod 10 okFetch ∅ State.init ⟨"p1", "u1", PodPhase.Succeeded⟩).state.InactivePodsSet :=
  ⟨by decide, by decide, rfl, by decide, by decide, by decide, by decide, by decide⟩

/-- C7 (amended). For a listed pod that is already tracked in ActivePodsSet
when its entry is processed: if it has no metrics, its phase is Succeeded or
Failed and the description fetch succeeds, the loop body returns with the name
out of ActivePodsSet and ActivePods, a record with the name appended to
InactivePods, and the name inserted into InactivePodsSet. -/
theorem tracked_terminal_retired (s : State) (hs : Reachable s) (now : Int)
    (fetch : String → Except String String) (has : Finset String) (pod : Pod) (raw : String)
    (htracked : pod.Name ∈ s.ActivePodsSet) (hm : pod.Name ∉ has)
    (hphase : pod.Phase = PodPhase.Succeeded ∨ pod.Phase = PodPhase.Failed)
    (hf : fetch pod.Name = .ok raw) :
    ∃ s', reconcilePod now fetch has s pod = .ok s' ∧
      pod.Name ∉ s'.ActivePodsSet ∧ pod.Name ∉ names s'.ActivePods ∧
      s'.InactivePods = s.InactivePods ++ [{ Name := pod.Name, UID := pod.UID,
                                              Status := pod.Phase, Timestamp := now }] ∧
      s'.InactivePodsSet = insert pod.Name s.InactivePodsSet := by
  have hI := Reachable_inv hs
  have hmem : pod.Name ∈ names s.ActivePods := by
    rw [hI.activeSet, List.mem_toFinset] at htracked; exact htracked
  obtain ⟨c, hc, hcn⟩ := List.mem_map.mp hmem
  obtain ⟨pre, post, hl, hpre, hpost⟩ := split_of_mem hI.activeNodup hc
  have hr := @reconcilePod_retires now fetch has s pod raw hI pre c post hl hcn
    (shouldRetire_iff.mpr ⟨hm, hphase⟩) hf
  refine ⟨_, hr, ?_, ?_, rfl, rfl⟩
  · simp
  · rw [names_append, List.mem_append, ← hcn]
    exact fun h => h.elim hpre hpost

/-- C7 (amended), Scenario A's third tick: `p1`, tracked as Running, is listed
as Succeeded with no metrics. -/
theorem tracked_terminal_retired_witness :
    ∃ s', reconcilePod 30 okFetch ∅ stateA2 ⟨"p1", "u1", PodPhase.Succeeded⟩ = .ok s' ∧
      "p1" ∉ s'.ActivePodsSet ∧ "p1" ∉ names s'.ActivePods ∧
      s'.InactivePods = stateA2.InactivePods ++ [{ Name := "p1", UID := "u1",
                                                    Status := PodPhase.Succeeded, Timestamp := 30 }] ∧
      s'.InactivePodsSet = insert "p1" stateA2.InactivePodsSet :=
  tracked_terminal_retired stateA2 stateA2_reachable 30 okFetch ∅
    ⟨"p1", "u1", PodPhase.Succeeded⟩ "raw:p1" (by decide) (by decide) (Or.inl rfl) rfl

theorem updateStatus_names {now : Int} {pod : Pod} {l : List PodsInfo} {r : List PodsInfo × Bool}
    (h : updateStatus now pod l = some r) : names r.1 = names l := by
  obtain ⟨pre, c, post, rfl, _, _, rfl⟩ := updateStatus_some h
  exact names_updated now pod pre c post

/-- C8. For every state and every listed pod: if the pod's name is in the set
of names with metrics (whatever its phase), or its phase is Pending, Running or
Unknown, the loop body leaves InactivePods and InactivePodsSet as they were,
removes no name from ActivePodsSet, and keeps every name of ActivePods in
place (the old names are an initial segment of the new ones). -/
theorem metrics_or_live_phase_not_retired (now : Int) (fetch : String → Except String String)
    (has : Finset String) (s : State) (pod : Pod)
    (h : pod.Name ∈ has ∨ pod.Phase = PodPhase.Pending ∨ pod.Phase = PodPhase.Running ∨
      pod.Phase = PodPhase.Unknown) :
    (reconcilePod now fetch has s pod).state.InactivePods = s.InactivePods ∧
    (reconcilePod now fetch has s pod).state.InactivePodsSet = s.InactivePodsSet ∧
    s.ActivePodsSet ⊆ (reconcilePod now fetch has s pod).state.ActivePodsSet ∧
    names s.ActivePods <+: names (reconcilePod now fetch has s pod).state.ActivePods := by
  have hno : shouldRetire has pod = false := by
    rw [← Bool.not_eq_true, shouldRetire_iff]
    rintro ⟨h1, h2⟩
    rcases h with h | h | h | h
    · exact h1 h
    all_goals (rcases h2 with h2 | h2 <;> rw [h] at h2 <;> cases h2)
  unfold reconcilePod
  split
  · exact ⟨rfl, rfl, Finset.Subset.refl _, List.prefix_refl _⟩
  · split
    · obtain ⟨a, b, c, d, _⟩ := logPodInfo_fields fetch pod.Name
        { s with ActivePodsSet := insert pod.Name s.ActivePodsSet,
                 ActivePods := s.ActivePods ++ [{ Name := pod.Name, UID := pod.UID,
                                                  Status := pod.Phase, Timestamp := now }] }
      rw [a, b, c, d]
      refine ⟨rfl, rfl, Finset.subset_insert _ _, ?_⟩
      rw [names_append]
      exact List.prefix_append _ _
    · cases hu : updateStatus now pod s.ActivePods with
      | none => exact ⟨rfl, rfl, Finset.Subset.refl _, List.prefix_refl _⟩
      | some r =>
        obtain ⟨l, changed⟩ := r
        have hn : names l = names s.ActivePods := updateStatus_names hu
        simp only [hno, Bool.false_eq_true, if_false]
        cases changed with
        | false =>
          simp only [Bool.false_eq_true, if_false, Result.bind, Result.state]
          exact ⟨trivial, trivial, Finset.Subset.refl _, by rw [hn]⟩
        | true =>
          simp only [if_true]
          obtain ⟨a, b, c, d, _⟩ := logPodInfo_fields fetch pod.Name { s with ActivePods := l }
          cases hlog : logPodInfo fetch pod.Name { s with ActivePods := l } with
          | ok s2 =>
            rw [hlog] at a b c d
            simp only [Result.bind, Result.state] at a b c d ⊢
            rw [a, b, c, d]
            exact ⟨rfl, rfl, Finset.Subset.refl _, by rw [hn]⟩
          | fatal s2 msg =>
            rw [hlog] at a b c d
            simp only [Result.bind, Result.state] at a b c d ⊢
            rw [a, b, c, d]
            exact ⟨rfl, rfl, Finset.Subset.refl _, by rw [hn]⟩

/-- C8, Scenario B: `p2`, tracked as Succeeded, is listed as Succeeded while
the metrics snapshot still has a sample for it. -/
theorem metrics_or_live_phase_not_retired_witness :
    (reconcilePod 20 okFetch {"p2"} stateB ⟨"p2", "u2", PodPhase.Succeeded⟩).state.InactivePods
      = stateB.InactivePods ∧
    (reconcilePod 20 okFetch {"p2"} stateB ⟨"p2", "u2", PodPhase.Succeeded⟩).state.InactivePodsSet
      = stateB.InactivePodsSet ∧
    stateB.ActivePodsSet ⊆
      (reconcilePod 20 okFetch {"p2"} stateB ⟨"p2", "u2", PodPhase.Succeeded⟩).state.ActivePodsSet ∧
    names stateB.ActivePods <+:
      names (reconcilePod 20 okFetch {"p2"} stateB ⟨"p2", "u2", PodPhase.Succeeded⟩).state.ActivePods :=
  metrics_or_live_phase_not_retired 20 okFetch {"p2"} stateB ⟨"p2", "u2", PodPhase.Succeeded⟩
    (Or.inl (by decide))

/-- C9 as stated fails. In Scenario A the third tick retires `p1` and logs one
line, the pod description of the status change, not two; and the tick after
Scenario B's, which retires `p2` with an unchanged status, logs nothing. -/
theorem retirement_logs_no_line :
    "p1" ∈ names (run [tickA1, tickA2, tickA3] State.init).state.InactivePods ∧
    (run [tickA1, tickA2] State.init).state.logged =
      [LogLine.podRaw "raw:p1", LogLine.podRaw "raw:p1"] ∧
    (run [tickA1, tickA2, tickA3] State.init).state.logged =
      [LogLine.podRaw "raw:p1", LogLine.podRaw "raw:p1", LogLine.podRaw "raw:p1"] ∧
    "p2" ∈ names (run [tickB, tickB2] State.init).state.InactivePods ∧
    (run [tickB, tickB2] State.init).state.logged = (run [tickB] State.init).state.logged := by
  decide

/-- C9 (amended). Retirement writes no line of its own. When the loop body
retires a tracked pod (record `c` in ActivePods, no metrics, phase Succeeded or
Failed, fetch succeeding with `raw`), the lines it adds to the log are exactly
those of the status comparison: the raw description once if the listed phase
differs from the stored status, and nothing if it is the same. -/
theorem retirement_log_lines (s : State) (hs : Reachable s) (now : Int)
    (fetch : String → Except String String) (has : Finset String) (pod : Pod) (c : PodsInfo)
    (raw : String) (hc : c ∈ s.ActivePods) (hcn : c.Name = pod.Name) (hm : pod.Name ∉ has)
    (hphase : pod.Phase = PodPhase.Succeeded ∨ pod.Phase = PodPhase.Failed)
    (hf : fetch pod.Name = .ok raw) :
    ∃ s', reconcilePod now fetch has s pod = .ok s' ∧
      pod.Name ∈ names s'.InactivePods ∧ pod.Name ∉ names s'.ActivePods ∧
      s'.logged = s.logged ++ (if c.Status = pod.Phase then [] else [LogLine.podRaw raw]) := by
  have hI := Reachable_inv hs
  obtain ⟨pre, post, hl, hpre, hpost⟩ := split_of_mem hI.activeNodup hc
  have hr := @reconcilePod_retires now fetch has s pod raw hI pre c post hl hcn
    (shouldRetire_iff.mpr ⟨hm, hphase⟩) hf
  refine ⟨_, hr, ?_, ?_, rfl⟩
  · simp [names]
  · rw [names_append, List.mem_append, ← hcn]
    exact fun h => h.elim hpre hpost

/-- C9 (amended), Scenario A's third tick: one line, for the status change. -/
theorem retirement_log_lines_witness :
    ∃ s', reconcilePod 30 okFetch ∅ stateA2 ⟨"p1", "u1", PodPhase.Succeeded⟩ = .ok s' ∧
      "p1" ∈ names s'.InactivePods ∧ "p1" ∉ names s'.ActivePods ∧
      s'.logged = stateA2.logged ++
        (if PodPhase.Running = PodPhase.Succeeded then [] else [LogLine.podRaw "raw:p1"]) :=
  retirement_log_lines stateA2 stateA2_reachable 30 okFetch ∅ ⟨"p1", "u1", PodPhase.Succeeded⟩
    ⟨"p1", "u1", PodPhase.Running, 20⟩ "raw:p1" (by decide) rfl (by decide) (Or.inl rfl) rfl

/-- C10 as stated fails. After Scenario B's tick the record of `p2` in
ActivePods carries timestamp 10, the time of its last status change; the next
tick lists `p2` with the same status and no metrics and retires it, and the
record appended to InactivePods carries timestamp 50, the time of retirement. -/
theorem archived_timestamp_is_retirement_time :
    (run [tickB] State.init).state.ActivePods = [⟨"p2", "u2", PodPhase.Succeeded, 10⟩] ∧
    (run [tickB, tickB2] State.init).state.ActivePods = [] ∧
    (run [tickB, tickB2] State.init).state.InactivePods = [⟨"p2", "u2", PodPhase.Succeeded, 50⟩] := by
  decide

/-- C10 (amended). When the loop body retires a tracked pod with record `c` in
ActivePods, that record is removed from ActivePods and the record appended to
InactivePods has the name and the status of the ActivePods record at that
moment (the status having just been set to the listed phase if it differed),
the UID of the listing, and the clock reading of the retirement as timestamp. -/
theorem archived_record_fields (s : State) (hs : Reachable s) (now : Int)
    (fetch : String → Except String String) (has : Finset String) (pod : Pod) (c : PodsInfo)
    (raw : String) (hc : c ∈ s.ActivePods) (hcn : c.Name = pod.Name) (hm : pod.Name ∉ has)
    (hphase : pod.Phase = PodPhase.Succeeded ∨ pod.Phase = PodPhase.Failed)
    (hf : fetch pod.Name = .ok raw) :
    ∃ s' pre post, s.ActivePods = pre ++ c :: post ∧
      reconcilePod now fetch has s pod = .ok s' ∧ s'.ActivePods = pre ++ post ∧
      s'.InactivePods = s.InactivePods ++
        [{ Name := c.Name, UID := pod.UID, Status := (touched now pod c).Status,
           Timestamp := now }] := by
  have hI := Reachable_inv hs
  obtain ⟨pre, post, hl, hpre, hpost⟩ := split_of_mem hI.activeNodup hc
  have hr := @reconcilePod_retires now fetch has s pod raw hI pre c post hl hcn
    (shouldRetire_iff.mpr ⟨hm, hphase⟩) hf
  refine ⟨_, pre, post, hl, hr, rfl, ?_⟩
  have hst : (touched now pod c).Status = pod.Phase := by
    unfold touched
    split
    · rfl
    · rename_i h; simpa using h
  simp only [hst, hcn]

/-- C10 (amended), the tick after Scenario B's: `p2`, tracked as Succeeded since
time 10, is retired at time 50. -/
theorem archived_record_fields_witness :
    ∃ s' pre post, stateB.ActivePods = pre ++ ⟨"p2", "u2", PodPhase.Succeeded, 10⟩ :: post ∧
      reconcilePod 50 okFetch ∅ stateB ⟨"p2", "u2", PodPhase.Succeeded⟩ = .ok s' ∧
      s'.ActivePods = pre ++ post ∧
      s'.InactivePods = stateB.InactivePods ++
        [{ Name := "p2", UID := "u2",
           Status := (touched 50 ⟨"p2", "u2", PodPhase.Succeeded⟩
             ⟨"p2", "u2", PodPhase.Succeeded, 10⟩).Status,
           Timestamp := 50 }] :=
  archived_record_fields stateB stateB_reachable 50 okFetch ∅ ⟨"p2", "u2", PodPhase.Succeeded⟩
    ⟨"p2", "u2", PodPhase.Succeeded, 10⟩ "raw:p2" (by decide) rfl (by decide) (Or.inl rfl) rfl

theorem digitChar_inj : ∀ x, x < 10 → ∀ y, y < 10 → Nat.digitChar x = Nat.digitChar y → x = y := by
  decide

theorem podName_inj {a b : Nat} (ha : a < 10000) (hb : b < 10000) (h : podName a = podName b) :
    a = b := by
  have hd := congrArg String.data h
  simp only [podName, List.cons.injEq, true_and, and_true] at hd
  obtain ⟨h3, h2, h1, h0⟩ := hd
  have e3 := digitChar_inj _ (Nat.mod_lt _ (by decide)) _ (Nat.mod_lt _ (by decide)) h3
  have e2 := digitChar_inj _ (Nat.mod_lt _ (by decide)) _ (Nat.mod_lt _ (by decide)) h2
  have e1 := digitChar_inj _ (Nat.mod_lt _ (by decide)) _ (Nat.mod_lt _ (by decide)) h1
  have e0 := digitChar_inj _ (Nat.mod_lt _ (by decide)) _ (Nat.mod_lt _ (by decide)) h0
  omega

theorem retire_archive (now : Int) (pod : Pod) (s : State) :
    (retire now pod s).state.InactivePods =
      s.InactivePods ++ [{ Name := pod.Name, UID := pod.UID, Status := pod.Phase,
                           Timestamp := now }] := by
  cases hidx : indexOfName pod.Name s.ActivePods <;> simp only [retire, hidx, Result.state]

theorem grows_bind {r : Result} {f : State → Result} {l : List PodsInfo}
    (hr : l <+: r.state.InactivePods)
    (hf : ∀ s, r = .ok s → s.InactivePods <+: (f s).state.InactivePods) :
    l <+: (r.bind f).state.InactivePods := by
  cases r with
  | ok s => exact hr.trans (hf s rfl)
  | fatal s msg => exact hr

theorem reconcilePod_archive_grows (now : Int) (fetch : String → Except String String)
    (has : Finset String) (s : State) (pod : Pod) :
    s.InactivePods <+: (reconcilePod now fetch has s pod).state.InactivePods := by
  unfold reconcilePod
  split
  · exact List.prefix_refl _
  · split
    · rw [(logPodInfo_fields fetch pod.Name _).2.1]
    · cases hu : updateStatus now pod s.ActivePods with
      | none => exact List.prefix_refl _
      | some r =>
        obtain ⟨l, changed⟩ := r
        simp only
        apply grows_bind
        · split
          · rw [(logPodInfo_fields fetch pod.Name _).2.1]
          · exact List.prefix_refl _
        · intro s2 _
          split
          · rw [retire_archive]; exact List.prefix_append _ _
          · exact List.prefix_refl _

theorem reconcile_archive_grows (now : Int) (fetch : String → Except String String)
    (has : Finset String) (pods : List Pod) (s : State) :
    s.InactivePods <+: (reconcile now fetch has pods s).state.InactivePods := by
  induction pods generalizing s with
  | nil => exact List.prefix_refl _
  | cons p rest ih =>
    simp only [reconcile]
    exact grows_bind (reconcilePod_archive_grows now fetch has s p) (fun s' _ => ih s')

theorem worker_archive_grows (t : Tick) (s : State) :
    (cleanup t.now s).state.InactivePods <+: (worker t s).state.InactivePods := by
  unfold worker
  apply grows_bind (List.prefix_refl _)
  intro s1 _
  split
  · exact List.prefix_refl _
  · simp only
    split
    · simp only [Result.state]
      rw [(ingest_fields _ s1).2.1]
    · rename_i items _ _ pods _
      have h := reconcile_archive_grows t.now t.fetch (ingest items s1).1 pods (ingest items s1).2
      rw [(ingest_fields items s1).2.1] at h
      exact h

/-- C2 (amended). In a run from the initial empty state, a name that is in the
archive once the tick's `cleanup` has run (so it was retired earlier and has not
been evicted) is still in InactivePods and InactivePodsSet when the tick ends,
and is in neither ActivePods nor ActivePodsSet, whatever the tick's pod listing
and metrics. -/
theorem retired_stays_out (ts : List Tick) (s : State) (t : Tick) (n : String)
    (hrun : run ts State.init = .ok s)
    (hkept : n ∈ names (cleanup t.now s).state.InactivePods) :
    n ∈ names (worker t s).state.InactivePods ∧ n ∈ (worker t s).state.InactivePodsSet ∧
    n ∉ names (worker t s).state.ActivePods ∧ n ∉ (worker t s).state.ActivePodsSet := by
  have hI : Inv (worker t s).state := Inv_worker (Reachable_inv (Reachable_run ts Reachable.init hrun))
  have hin : n ∈ names (worker t s).state.InactivePods :=
    ((worker_archive_grows t s).map _).subset hkept
  refine ⟨hin, ?_, ?_, ?_⟩
  · rw [hI.inactiveSet, List.mem_toFinset]; exact hin
  · exact fun h => hI.apart n h hin
  · rw [hI.activeSet, List.mem_toFinset]; exact fun h => hI.apart n h hin

/-- C2 (amended), Scenario A: `p1`, retired in the third tick, is listed again
as Running in a fourth tick. -/
theorem retired_stays_out_witness :
    "p1" ∈ names (worker ⟨40, .ok [], .ok [⟨"p1", "u1", PodPhase.Running⟩], okFetch⟩
      (run [tickA1, tickA2, tickA3] State.init).state).state.InactivePods ∧
    "p1" ∈ (worker ⟨40, .ok [], .ok [⟨"p1", "u1", PodPhase.Running⟩], okFetch⟩
      (run [tickA1, tickA2, tickA3] State.init).state).state.InactivePodsSet ∧
    "p1" ∉ names (worker ⟨40, .ok [], .ok [⟨"p1", "u1", PodPhase.Running⟩], okFetch⟩
      (run [tickA1, tickA2, tickA3] State.init).state).state.ActivePods ∧
    "p1" ∉ (worker ⟨40, .ok [], .ok [⟨"p1", "u1", PodPhase.Running⟩], okFetch⟩
      (run [tickA1, tickA2, tickA3] State.init).state).state.ActivePodsSet :=
  retired_stays_out [tickA1, tickA2, tickA3] (run [tickA1, tickA2, tickA3] State.init).state
    ⟨40, .ok [], .ok [⟨"p1", "u1", PodPhase.Running⟩], okFetch⟩ "p1" rfl (by decide)

theorem fleet_names_nodup : (fleet.map (fun p => p.Name)).Nodup := by
  have hrest : ∀ n ∈ fleetRest.map (fun p => p.Name), ∃ i, i < 999 ∧ n = podName (i + 2) := by
    intro n hn
    simp only [fleetRest, List.map_map, List.mem_map, List.mem_range, Function.comp] at hn
    obtain ⟨i, hi, rfl⟩ := hn
    exact ⟨i, hi, rfl⟩
  simp only [fleet, List.map_cons, List.nodup_cons, List.mem_cons, not_or]
  refine ⟨⟨?_, ?_⟩, ?_, ?_⟩
  · intro h
    have := podName_inj (by decide) (by decide) h
    omega
  · intro h
    obtain ⟨i, hi, he⟩ := hrest _ h
    have := podName_inj (by decide) (by omega) he
    omega
  · intro h
    obtain ⟨i, hi, he⟩ := hrest _ h
    have := podName_inj (by decide) (by omega) he
    omega
  · simp only [fleetRest, List.map_map]
    refine List.Nodup.map_on ?_ (List.nodup_range 999)
    intro a ha b hb hab
    simp only [Function.comp, done] at hab
    have := podName_inj (by have := List.mem_range.mp ha; omega)
      (by have := List.mem_range.mp hb; omega) hab
    omega

theorem reconcile_firstSeen_all {now : Int} {has : Finset String} (pods : List Pod) {s : State}
    (hI : Inv s) (hnd : (pods.map (fun p => p.Name)).Nodup)
    (hnew : ∀ p ∈ pods, p.Name ∉ names s.ActivePods ∧ p.Name ∉ names s.InactivePods) :
    ∃ s', reconcile now okFetch has pods s = .ok s' ∧
      s'.ActivePods = s.ActivePods ++ pods.map (recordOf now) ∧
      s'.InactivePods = s.InactivePods := by
  induction pods generalizing s with
  | nil => exact ⟨s, rfl, by simp, rfl⟩
  | cons p rest ih =>
    have hp := hnew p (List.mem_cons_self _ _)
    have h1 : p.Name ∉ s.InactivePodsSet := by
      rw [hI.inactiveSet, List.mem_toFinset]; exact hp.2
    have h2 : p.Name ∉ s.ActivePodsSet := by
      rw [hI.activeSet, List.mem_toFinset]; exact hp.1
    have hstep := @reconcilePod_firstSeen now okFetch has s p ("raw:" ++ p.Name) h1 h2 rfl
    have hI' : Inv (reconcilePod now okFetch has s p).state := Inv_reconcilePod hI
    rw [hstep] at hI'
    simp only [Result.state] at hI'
    simp only [List.map_cons, List.nodup_cons] at hnd
    obtain ⟨s', hr, ha, hb⟩ := ih hI' hnd.2 (by
      intro q hq
      have hq' := hnew q (List.mem_cons_of_mem _ hq)
      refine ⟨?_, hq'.2⟩
      simp only [names_append, List.mem_append, not_or]
      refine ⟨hq'.1, ?_⟩
      simp only [names, List.map_cons, List.map_nil, List.mem_singleton]
      intro h
      exact hnd.1 (h ▸ List.mem_map_of_mem _ hq))
    refine ⟨s', ?_, ?_, ?_⟩
    · simp only [reconcile, hstep, Result.bind]
      exact hr
    · rw [ha]
      simp [recordOf]
    · rw [hb]

theorem reconcile_retire_all {now t0 : Int} {has : Finset String} (pods : List Pod)
    {s : State} (rest : List PodsInfo) (hI : Inv s)
    (hl : s.ActivePods = pods.map (recordOf t0) ++ rest)
    (hret : ∀ p ∈ pods, shouldRetire has p = true) :
    ∃ s', reconcile now okFetch has pods s = .ok s' ∧ s'.ActivePods = rest ∧
      s'.InactivePods = s.InactivePods ++ pods.map (recordOf now) := by
  induction pods generalizing s with
  | nil => exact ⟨s, rfl, by simpa using hl, by simp⟩
  | cons p ps ih =>
    have hstep := @reconcilePod_retires now okFetch has s p ("raw:" ++ p.Name) hI []
      (recordOf t0 p) (ps.map (recordOf t0) ++ rest) (by simpa using hl) rfl
      (hret p (List.mem_cons_self _ _)) rfl
    have hI' : Inv (reconcilePod now okFetch has s p).state := Inv_reconcilePod hI
    rw [hstep] at hI'
    simp only [Result.state] at hI'
    obtain ⟨s', hr, ha, hb⟩ := ih hI' (by simp)
      (fun q hq => hret q (List.mem_cons_of_mem _ hq))
    refine ⟨s', ?_, ha, ?_⟩
    · simp only [reconcile, hstep, Result.bind]
      exact hr
    · rw [hb]
      simp [recordOf]

theorem worker_quiet {t : Tick} {s : State} {pods : List Pod} (hm : t.metrics = .ok [])
    (hp : t.pods = .ok pods) (hlen : s.InactivePods.length ≤ InactivePodsThresholdCnt) :
    worker t s = reconcile t.now t.fetch ∅ pods s := by
  unfold worker
  rw [cleanup_small hlen, hm, hp]
  simp [Result.bind, ingest]

theorem run_nil (s : State) : run [] s = .ok s := rfl

theorem run_cons (t : Tick) (ts : List Tick) (s : State) :
    run (t :: ts) s = (worker t s).bind (run ts) := rfl

theorem bind_ok (s : State) (f : State → Result) : (Result.ok s).bind f = f s := rfl

theorem run_append (ts us : List Tick) (s : State) :
    run (ts ++ us) s = (run ts s).bind (run us) := by
  induction ts generalizing s with
  | nil => rfl
  | cons t ts ih =>
    rw [List.cons_append, run_cons, run_cons]
    cases worker t s with
    | ok a => rw [bind_ok, bind_ok]; exact ih a
    | fatal a m => rfl

theorem reconcile_one (now : Int) (fetch : String → Except String String) (has : Finset String)
    (p : Pod) (s s' : State) (h : reconcilePod now fetch has s p = .ok s') :
    reconcile now fetch has [p] s = .ok s' := by
  rw [reconcile, h, bind_ok, reconcile]

theorem worker_after_cleanup {t : Tick} {s s1 : State} {pods : List Pod}
    (hc : cleanup t.now s = .ok s1) (hm : t.metrics = .ok []) (hp : t.pods = .ok pods) :
    worker t s = reconcile t.now t.fetch ∅ pods s1 := by
  unfold worker
  rw [hc, hm, hp]
  simp [Result.bind, ingest]

theorem done_retire (i : Nat) : shouldRetire ∅ (done i) = true := by
  simp [shouldRetire, done]

theorem evictionRun_two :
    ∃ s2, run [tickE1, tickE2] State.init = .ok s2 ∧ Inv s2 ∧
      s2.ActivePods = (done 1 :: fleetRest).map (recordOf 0) ∧
      s2.InactivePods = [recordOf 0 (done 0)] := by
  have hw1 : worker tickE1 State.init = reconcile 0 okFetch ∅ fleet State.init :=
    worker_quiet rfl rfl (by simp [State.init])
  obtain ⟨s1, hr1, ha1, hb1⟩ := @reconcile_firstSeen_all 0 ∅ fleet State.init Inv_init
    fleet_names_nodup (by intro p _; simp [State.init, names])
  have hI1 : Inv s1 := by
    have h := @Inv_worker tickE1 State.init Inv_init
    rw [hw1, hr1] at h
    exact h
  have hw2 : worker tickE2 s1 = reconcile 0 okFetch ∅ [done 0] s1 :=
    worker_quiet rfl rfl (by rw [hb1]; simp [State.init])
  obtain ⟨s2, hr2, ha2, hb2⟩ := @reconcile_retire_all 0 0 ∅ [done 0] s1
    ((done 1 :: fleetRest).map (recordOf 0)) hI1
    (by rw [ha1]; simp [State.init, fleet])
    (by intro p hp; rw [List.mem_singleton.mp hp]; exact done_retire 0)
  have hI2 : Inv s2 := by
    have h := @Inv_worker tickE2 s1 hI1
    rw [hw2, hr2] at h
    exact h
  refine ⟨s2, ?_, hI2, ha2, ?_⟩
  · rw [run_cons, hw1, hr1, bind_ok, run_cons, hw2, hr2, bind_ok, run_nil]
  · rw [hb2, hb1]; simp [State.init]

theorem fleetRest_length : fleetRest.length = 999 := by
  simp [fleetRest]

theorem evictionRun_four :
    ∃ s5, run [tickE1, tickE2, tickE3, tickE4] State.init = .ok s5 ∧
      podName 0 ∈ names s5.ActivePods ∧ podName 0 ∈ s5.ActivePodsSet := by
  obtain ⟨s2, hrun2, hI2, ha2, hb2⟩ := evictionRun_two
  have hw3 : worker tickE3 s2 = reconcile sampleNow okFetch ∅ (done 1 :: fleetRest) s2 :=
    worker_quiet rfl rfl (by rw [hb2]; simp [InactivePodsThresholdCnt])
  obtain ⟨s3, hr3, ha3, hb3⟩ := @reconcile_retire_all sampleNow 0 ∅ (done 1 :: fleetRest) s2 []
    hI2 (by rw [ha2]; simp)
    (by
      intro p hp
      rcases List.mem_cons.mp hp with rfl | hp
      · exact done_retire 1
      · simp only [fleetRest, List.mem_map] at hp
        obtain ⟨i, _, rfl⟩ := hp
        exact done_retire _)
  have hI3 : Inv s3 := by
    have h := @Inv_worker tickE3 s2 hI2
    rw [hw3, hr3] at h
    exact h
  have harch : s3.InactivePods = [recordOf 0 (done 0)] ++
      recordOf sampleNow (done 1) :: fleetRest.map (recordOf sampleNow) := by
    rw [hb3, hb2]; simp
  have hclean := @cleanup_split sampleNow s3 [recordOf 0 (done 0)] (recordOf sampleNow (done 1))
    (fleetRest.map (recordOf sampleNow)) harch
    (by rw [harch]; simp [fleetRest_length, InactivePodsThresholdCnt])
    (by
      intro m hm
      rw [List.mem_singleton.mp hm, inWindow_false_iff]
      simp only [recordOf, sampleNow, InactivePodsThresholdTime]
      omega)
    (by
      rw [inWindow_iff]
      simp only [recordOf, sampleNow, InactivePodsThresholdTime]
      omega)
  have hout : podName 0 ∉ names (fleetRest.map (recordOf sampleNow)) := by
    simp only [names, fleetRest, List.map_map, List.mem_map, List.mem_range, Function.comp,
      recordOf, done, not_exists, not_and]
    intro i hi he
    have := podName_inj (by omega) (by decide) he
    omega
  have h1 : podName 0 ∉ rebuildSet (fleetRest.map (recordOf sampleNow)) := by
    rw [rebuildSet_eq, List.mem_toFinset]; exact hout
  have h2 : podName 0 ∉ s3.ActivePodsSet := by
    rw [hI3.activeSet, ha3]; simp [names]
  have hstep := @reconcilePod_firstSeen sampleNow okFetch ∅
    { s3 with InactivePods := fleetRest.map (recordOf sampleNow),
              InactivePodsSet := rebuildSet (fleetRest.map (recordOf sampleNow)) }
    { Name := podName 0, UID := "uid", Phase := PodPhase.Running } ("raw:" ++ podName 0) h1 h2 rfl
  have hw4 : worker tickE4 s3 = reconcile sampleNow okFetch ∅
      [{ Name := podName 0, UID := "uid", Phase := PodPhase.Running }]
      { s3 with InactivePods := fleetRest.map (recordOf sampleNow),
                InactivePodsSet := rebuildSet (fleetRest.map (recordOf sampleNow)) } :=
    worker_after_cleanup hclean rfl rfl
  obtain ⟨s5, hs5, hA, hS⟩ : ∃ s5, reconcilePod sampleNow okFetch ∅
      { s3 with InactivePods := fleetRest.map (recordOf sampleNow),
                InactivePodsSet := rebuildSet (fleetRest.map (recordOf sampleNow)) }
      { Name := podName 0, UID := "uid", Phase := PodPhase.Running } = .ok s5 ∧
      podName 0 ∈ names s5.ActivePods ∧ podName 0 ∈ s5.ActivePodsSet :=
    ⟨_, hstep, by simp [names], by simp⟩
  have h4 := reconcile_one _ _ _ _ _ _ hs5
  have hrun : run [tickE1, tickE2, tickE3, tickE4] State.init =
      (run [tickE1, tickE2] State.init).bind (run [tickE3, tickE4]) :=
    run_append [tickE1, tickE2] [tickE3, tickE4] State.init
  refine ⟨s5, ?_, hA, hS⟩
  rw [hrun, hrun2, bind_ok, run_cons, hw3, hr3, bind_ok, run_cons, hw4, h4, bind_ok, run_nil]

/-- C2 as stated fails once `cleanup` has evicted the name. From the initial
state: tick 1 lists 1001 Succeeded pods, tick 2 (time 0) retires `p0000`,
tick 3 (about 28 hours later) retires the other 1000, and in tick 4 `cleanup`
finds 1001 archived records and drops `p0000` from the archive; `p0000`, listed
again as Running, is then put back into ActivePods and ActivePodsSet. -/
theorem evicted_name_returns :
    podName 0 ∈ names (run [tickE1, tickE2] State.init).state.InactivePods ∧
    (run [tickE1, tickE2, tickE3, tickE4] State.init).isOk = true ∧
    podName 0 ∈ names (run [tickE1, tickE2, tickE3, tickE4] State.init).state.ActivePods ∧
    podName 0 ∈ (run [tickE1, tickE2, tickE3, tickE4] State.init).state.ActivePodsSet := by
  obtain ⟨s2, hrun2, _, _, hb2⟩ := evictionRun_two
  obtain ⟨s5, hrun4, h1, h2⟩ := evictionRun_four
  rw [hrun2, hrun4]
  refine ⟨?_, rfl, h1, h2⟩
  simp only [Result.state, hb2]
  simp [names, recordOf, done]

theorem tickTwice_retires :
    (run [tickTwice] State.init).state.ActivePods = [] ∧
    (run [tickTwice] State.init).state.InactivePods = [⟨"p1", "u1", PodPhase.Succeeded, 10⟩] := by
  decide

/-- C11. In every state reached from the initial empty state by a sequence of
ticks, whatever the pod listings (a listing may name the same pod several
times), no name occurs twice in ActivePods and no name occurs twice in
InactivePods. -/
theorem no_name_twice (ts : List Tick) :
    (names (run ts State.init).state.ActivePods).Nodup ∧
    (names (run ts State.init).state.InactivePods).Nodup :=
  ⟨(Inv_run ts Inv_init).activeNodup, (Inv_run ts Inv_init).inactiveNodup⟩

/-- C12. In every state in which a tick ends, from the initial empty state,
ActivePodsSet is the set of the names in ActivePods and InactivePodsSet is the
set of the names in InactivePods: a name is in the set exactly when a record of
the slice carries it. -/
theorem sets_match_slices (ts : List Tick) :
    (run ts State.init).state.ActivePodsSet = (names (run ts State.init).state.ActivePods).toFinset ∧
    (run ts State.init).state.InactivePodsSet =
      (names (run ts State.init).state.InactivePods).toFinset ∧
    (∀ n, n ∈ (run ts State.init).state.ActivePodsSet ↔
      ∃ c ∈ (run ts State.init).state.ActivePods, c.Name = n) ∧
    (∀ n, n ∈ (run ts State.init).state.InactivePodsSet ↔
      ∃ c ∈ (run ts State.init).state.InactivePods, c.Name = n) := by
  have h := Inv_run ts Inv_init
  refine ⟨h.activeSet, h.inactiveSet, ?_, ?_⟩
  · intro n
    rw [h.activeSet, List.mem_toFinset, names, List.mem_map]
  · intro n
    rw [h.inactiveSet, List.mem_toFinset, names, List.mem_map]

theorem ingest_fold_has (items : List PodMetrics) (acc : Finset String × State) :
    (items.foldl ingestItem acc).1 = acc.1 ∪ (items.map (fun m => m.Name)).toFinset := by
  induction items generalizing acc with
  | nil => simp
  | cons m ms ih =>
    rw [List.foldl_cons, ih]
    have h1 : (ingestItem acc m).1 = insert m.Name acc.1 := by
      unfold ingestItem
      simp only
      split
      · rfl
      · split <;> rfl
    rw [h1]
    ext n
    simp only [List.map_cons, List.toFinset_cons, Finset.mem_union, Finset.mem_insert]
    tauto

/-- C15. For every metrics snapshot and every state before it, the set that
the metrics loop hands to the pod loop (`HasMetricsPodsSet`) is exactly the set
of the names of the snapshot's items: it depends neither on the timestamps nor
on LastPodMetricsTime, and holds nothing from an earlier tick. -/
theorem has_metrics_is_snapshot_names (items : List PodMetrics) (s : State) :
    (ingest items s).1 = (items.map (fun m => m.Name)).toFinset := by
  unfold ingest
  rw [ingest_fold_has]
  simp

theorem cleanup_frame (now : Int) (s : State) :
    (cleanup now s).state.ActivePods = s.ActivePods ∧
    (cleanup now s).state.ActivePodsSet = s.ActivePodsSet ∧
    (cleanup now s).state.LastPodMetricsTime = s.LastPodMetricsTime ∧
    (cleanup now s).state.logged = s.logged := by
  unfold cleanup
  split
  · split <;> exact ⟨rfl, rfl, rfl, rfl⟩
  · exact ⟨rfl, rfl, rfl, rfl⟩

/-- C19. When the archive holds at most `InactivePodsThresholdCnt` records,
`cleanup` returns with every variable as it was, however old the records are;
and in every state `cleanup` leaves ActivePods, ActivePodsSet and
LastPodMetricsTime as they were. -/
theorem cleanup_idle_and_frame (now : Int) (s : State) :
    (s.InactivePods.length ≤ InactivePodsThresholdCnt → cleanup now s = .ok s) ∧
    (cleanup now s).state.ActivePods = s.ActivePods ∧
    (cleanup now s).state.ActivePodsSet = s.ActivePodsSet ∧
    (cleanup now s).state.LastPodMetricsTime = s.LastPodMetricsTime :=
  ⟨cleanup_small, (cleanup_frame now s).1, (cleanup_frame now s).2.1, (cleanup_frame now s).2.2.1⟩

theorem scenarioFull_archive : scenarioFull.InactivePods = sampleFull := by
  simp only [scenarioFull]

/-- C19, at the threshold: exactly 1000 archived records, all older than 24
hours, are all kept and no fault is reported. -/
theorem cleanup_idle_and_frame_witness :
    scenarioFull.InactivePods.length = 1000 ∧
    (∀ m ∈ scenarioFull.InactivePods, inWindow sampleNow m = false) ∧
    cleanup sampleNow scenarioFull = .ok scenarioFull :=
  ⟨by rw [scenarioFull_archive, sampleFull, List.length_map, List.length_range],
   by
    intro m hm
    rw [scenarioFull_archive, sampleFull] at hm
    simp only [List.mem_map, List.mem_range] at hm
    obtain ⟨i, hi, rfl⟩ := hm
    rw [inWindow_false_iff]
    simp only [archived, sampleNow, InactivePodsThresholdTime]
    omega,
   (cleanup_idle_and_frame sampleNow scenarioFull).1
    (by rw [scenarioFull_archive, sampleFull, List.length_map, List.length_range]; decide)⟩

theorem ingestItem_covers (acc : Finset String × State) (m : PodMetrics) :
    Covered (ingestItem acc m).2 m := by
  unfold ingestItem Covered
  simp only
  split
  · exact ⟨m.Timestamp, by simp, le_refl _⟩
  · rename_i v hv
    split
    · exact ⟨m.Timestamp, by simp, le_refl _⟩
    · rename_i hlt
      exact ⟨v, hv, by omega⟩

theorem ingestItem_keeps (acc : Finset String × State) (m m' : PodMetrics)
    (h : Covered acc.2 m') : Covered (ingestItem acc m).2 m' := by
  obtain ⟨v, hv, hle⟩ := h
  unfold ingestItem Covered
  simp only
  by_cases hn : m'.Name = m.Name
  · rw [hn] at hv
    rw [hv]
    simp only
    split
    · rename_i hlt
      exact ⟨m.Timestamp, by simp [hn], by omega⟩
    · exact ⟨v, by rw [hn]; exact hv, hle⟩
  · split
    · exact ⟨v, by simp [hn, hv], hle⟩
    · split
      · exact ⟨v, by simp [hn, hv], hle⟩
      · exact ⟨v, hv, hle⟩

theorem ingest_fold_keeps (items : List PodMetrics) (acc : Finset String × State)
    (m' : PodMetrics) (h : Covered acc.2 m') : Covered (items.foldl ingestItem acc).2 m' := by
  induction items generalizing acc with
  | nil => exact h
  | cons m ms ih => exact ih _ (ingestItem_keeps acc m m' h)

theorem ingest_fold_covers (items : List PodMetrics) (acc : Finset String × State) :
    ∀ m ∈ items, Covered (items.foldl ingestItem acc).2 m := by
  induction items generalizing acc with
  | nil => intro m hm; cases hm
  | cons m ms ih =>
    intro m' hm'
    rcases List.mem_cons.mp hm' with rfl | hm'
    · exact ingest_fold_keeps ms _ m' (ingestItem_covers acc m')
    · exact ih _ m' hm'

theorem ingestItem_idle (acc : Finset String × State) (m : PodMetrics)
    (h : Covered acc.2 m) : (ingestItem acc m).2 = acc.2 := by
  obtain ⟨v, hv, hle⟩ := h
  unfold ingestItem
  simp only [hv]
  rw [if_neg (by omega)]

theorem ingest_fold_idle (items : List PodMetrics) (acc : Finset String × State)
    (h : ∀ m ∈ items, Covered acc.2 m) : (items.foldl ingestItem acc).2 = acc.2 := by
  induction items generalizing acc with
  | nil => rfl
  | cons m ms ih =>
    have h1 := ingestItem_idle acc m (h m (List.mem_cons_self _ _))
    rw [List.foldl_cons, ih, h1]
    intro m' hm'
    rw [h1]
    exact h m' (List.mem_cons_of_mem _ hm')

/-- C13. For every state and every metrics snapshot, running the metrics loop
on the same snapshot a second time right after the first leaves every variable
as it is: no metrics line is logged and LastPodMetricsTime is unchanged. And a
snapshot of one sample whose name has no stored time logs exactly that sample. -/
theorem ingest_twice_idle (items : List PodMetrics) (s : State) (m : PodMetrics) :
    (ingest items (ingest items s).2).2 = (ingest items s).2 ∧
    (ingest items (ingest items s).2).2.logged = (ingest items s).2.logged ∧
    (ingest items (ingest items s).2).2.LastPodMetricsTime = (ingest items s).2.LastPodMetricsTime ∧
    (s.LastPodMetricsTime m.Name = none →
      (ingest [m] s).2.logged = s.logged ++ [LogLine.metrics m]) := by
  have h : (ingest items (ingest items s).2).2 = (ingest items s).2 := by
    unfold ingest
    exact ingest_fold_idle items (∅, (items.foldl ingestItem (∅, s)).2)
      (ingest_fold_covers items (∅, s))
  refine ⟨h, by rw [h], by rw [h], ?_⟩
  intro hnone
  simp only [ingest, List.foldl_cons, List.foldl_nil, ingestItem, hnone]

/-- C13, Scenario E: two consecutive samples for `p3` with the same timestamp;
only the first is logged. -/
theorem ingest_twice_idle_witness :
    (ingest [sampleP3] State.init).2.logged = [LogLine.metrics sampleP3] ∧
    (ingest [sampleP3] (ingest [sampleP3] State.init).2).2.logged = [LogLine.metrics sampleP3] :=
  ⟨(ingest_twice_idle [sampleP3] State.init sampleP3).2.2.2 rfl,
   (ingest_twice_idle [sampleP3] State.init sampleP3).2.1.trans
    ((ingest_twice_idle [sampleP3] State.init sampleP3).2.2.2 rfl)⟩

theorem le_getLast (l : List Int) (v : Int) (hp : l.Pairwise (fun a b => a < b))
    (hl : l.getLast? = some v) : ∀ a ∈ l, a ≤ v := by
  induction l with
  | nil => intro a ha; cases ha
  | cons x xs ih =>
    intro a ha
    rw [List.pairwise_cons] at hp
    cases xs with
    | nil =>
      simp only [List.getLast?_singleton, Option.some.injEq] at hl
      simp only [List.mem_singleton] at ha
      omega
    | cons y ys =>
      rw [List.getLast?_cons_cons] at hl
      rcases List.mem_cons.mp ha with rfl | ha
      · have h1 := ih hp.2 hl y (List.mem_cons_self _ _)
        have h2 := hp.1 y (List.mem_cons_self _ _)
        omega
      · exact ih hp.2 hl a ha

theorem sampleTimes_append (n : String) (l l' : List LogLine) :
    sampleTimes n (l ++ l') = sampleTimes n l ++ sampleTimes n l' := by
  simp [sampleTimes]

theorem sampleTimes_metrics_same (m : PodMetrics) :
    sampleTimes m.Name [LogLine.metrics m] = [m.Timestamp] := by
  simp [sampleTimes, sampleTime, List.filterMap_cons]

theorem sampleTimes_metrics_other {n : String} (m : PodMetrics) (h : ¬ m.Name = n) :
    sampleTimes n [LogLine.metrics m] = [] := by
  simp [sampleTimes, sampleTime, List.filterMap_cons, h]

theorem Fresh_record {s : State} (m : PodMetrics) (h : Fresh s)
    (hnew : ∀ v, s.LastPodMetricsTime m.Name = some v → v < m.Timestamp) :
    Fresh { s with LastPodMetricsTime := fun n => if n = m.Name then some m.Timestamp
                                                   else s.LastPodMetricsTime n,
                   logged := s.logged ++ [LogLine.metrics m] } := by
  intro n
  by_cases hn : n = m.Name
  · subst hn
    simp only [sampleTimes_append, sampleTimes_metrics_same, if_true, List.getLast?_concat,
      and_true]
    rw [List.pairwise_append]
    refine ⟨(h m.Name).1, List.pairwise_singleton _ _, ?_⟩
    intro a ha b hb
    rw [List.mem_singleton.mp hb]
    cases hl : (sampleTimes m.Name s.logged).getLast? with
    | none =>
      rw [List.getLast?_eq_none_iff] at hl
      rw [hl] at ha
      cases ha
    | some v =>
      have h1 := le_getLast _ v (h m.Name).1 hl a ha
      have h2 := hnew v ((h m.Name).2.trans hl)
      omega
  · have hn' : ¬ m.Name = n := fun e => hn e.symm
    simp only [sampleTimes_append, sampleTimes_metrics_other m hn', List.append_nil, hn, if_false]
    exact h n

theorem Fresh_ingestItem (acc : Finset String × State) (m : PodMetrics) (h : Fresh acc.2) :
    Fresh (ingestItem acc m).2 := by
  unfold ingestItem
  simp only
  split
  · rename_i hnone
    exact Fresh_record m h (fun v hv => by rw [hnone] at hv; cases hv)
  · rename_i v hv
    split
    · rename_i hlt
      refine Fresh_record m h (fun w hw => ?_)
      rw [hv] at hw
      cases hw
      exact hlt
    · exact h

theorem Fresh_fold (items : List PodMetrics) (acc : Finset String × State) (h : Fresh acc.2) :
    Fresh (items.foldl ingestItem acc).2 := by
  induction items generalizing acc with
  | nil => exact h
  | cons m ms ih => exact ih _ (Fresh_ingestItem acc m h)

theorem Fresh_ingestAll (snaps : List (List PodMetrics)) (s : State) (h : Fresh s) :
    Fresh (ingestAll snaps s) := by
  induction snaps generalizing s with
  | nil => exact h
  | cons items rest ih => exact ih _ (Fresh_fold items (∅, s) h)

/-- C14. After any sequence of metrics snapshots has gone through the metrics
loop from the initial state, for every pod name the sample timestamps of the
metrics lines logged for it increase strictly in logging order, and
LastPodMetricsTime holds for the name the timestamp of the last line logged for
it (and nothing when no line was logged for it). -/
theorem logged_samples_increase (snaps : List (List PodMetrics)) (n : String) :
    (sampleTimes n (ingestAll snaps State.init).logged).Pairwise (fun a b => a < b) ∧
    (ingestAll snaps State.init).LastPodMetricsTime n =
      (sampleTimes n (ingestAll snaps State.init).logged).getLast? :=
  Fresh_ingestAll snaps State.init (fun _ => ⟨List.Pairwise.nil, rfl⟩) n

theorem stateA1_reachable : Reachable stateA1 :=
  Reachable_run [tickA1] Reachable.init rfl

theorem reconcilePod_tracked {now : Int} {fetch : String → Except String String}
    {has : Finset String} {s : State} {pod : Pod} {raw : String} (hI : Inv s)
    (pre : List PodsInfo) (c : PodsInfo) (post : List PodsInfo)
    (hl : s.ActivePods = pre ++ c :: post) (hc : c.Name = pod.Name)
    (hret : shouldRetire has pod = false)
    (hf : c.Status ≠ pod.Phase → fetch pod.Name = .ok raw) :
    reconcilePod now fetch has s pod = .ok
      { s with ActivePods := pre ++ touched now pod c :: post,
               logged := s.logged ++ statusLines pod c raw } := by
  have hmem : pod.Name ∈ names s.ActivePods := by
    rw [hl, names_append, names_cons, ← hc]; simp
  have h1 : pod.Name ∉ s.InactivePodsSet := by
    rw [hI.inactiveSet, List.mem_toFinset]; exact hI.apart _ hmem
  have h2 : ¬ pod.Name ∉ s.ActivePodsSet := by
    rw [hI.activeSet, List.mem_toFinset]; exact fun h => h hmem
  have hpre : pod.Name ∉ names pre := by
    have hnd := hI.activeNodup
    rw [hl, names_append, names_cons, hc] at hnd
    intro h
    exact (List.nodup_append.mp hnd).2.2 h (List.mem_cons_self _ _)
  unfold reconcilePod
  rw [if_neg h1, if_neg h2, hl, updateStatus_split pre c post hc hpre]
  by_cases hs : c.Status = pod.Phase
  · simp [hs, Result.bind, hret, statusLines]
  · simp [hs, Result.bind, hret, statusLines, logPodInfo, hf hs]

theorem reconcilePod_retires_lazy {now : Int} {fetch : String → Except String String}
    {has : Finset String} {s : State} {pod : Pod} {raw : String} (hI : Inv s)
    (pre : List PodsInfo) (c : PodsInfo) (post : List PodsInfo)
    (hl : s.ActivePods = pre ++ c :: post) (hc : c.Name = pod.Name)
    (hret : shouldRetire has pod = true)
    (hf : c.Status ≠ pod.Phase → fetch pod.Name = .ok raw) :
    reconcilePod now fetch has s pod = .ok
      { ActivePods := pre ++ post,
        InactivePods := s.InactivePods ++ [{ Name := pod.Name, UID := pod.UID,
                                              Status := pod.Phase, Timestamp := now }],
        ActivePodsSet := s.ActivePodsSet.erase pod.Name,
        InactivePodsSet := insert pod.Name s.InactivePodsSet,
        LastPodMetricsTime := s.LastPodMetricsTime,
        logged := s.logged ++ statusLines pod c raw } := by
  have hmem : pod.Name ∈ names s.ActivePods := by
    rw [hl, names_append, names_cons, ← hc]; simp
  have h1 : pod.Name ∉ s.InactivePodsSet := by
    rw [hI.inactiveSet, List.mem_toFinset]; exact hI.apart _ hmem
  have h2 : ¬ pod.Name ∉ s.ActivePodsSet := by
    rw [hI.activeSet, List.mem_toFinset]; exact fun h => h hmem
  have hpre : pod.Name ∉ names pre := by
    have hnd := hI.activeNodup
    rw [hl, names_append, names_cons, hc] at hnd
    intro h
    exact (List.nodup_append.mp hnd).2.2 h (List.mem_cons_self _ _)
  unfold reconcilePod
  rw [if_neg h1, if_neg h2, hl, updateStatus_split pre c post hc hpre]
  have hidx : indexOfName pod.Name (pre ++ touched now pod c :: post) = some pre.length :=
    indexOfName_split pre _ post ((touched_name now pod c).trans hc) hpre
  by_cases hs : c.Status = pod.Phase
  · simp [hs, Result.bind, hret, retire, hidx, statusLines, take_drop_split]
  · simp [hs, Result.bind, hret, retire, hidx, statusLines, take_drop_split, logPodInfo, hf hs]

/-- C16 as stated fails when the description fetch fails: `p1`, tracked as
Pending, is listed as Running; the record is updated, then `logPodInfo` ends
the process and no line is logged. -/
theorem status_change_fetch_failure :
    stateA1.ActivePods = [⟨"p1", "u1", PodPhase.Pending, 10⟩] ∧
    (reconcilePod 20 badFetch ∅ stateA1 ⟨"p1", "u1", PodPhase.Running⟩).isOk = false ∧
    (reconcilePod 20 badFetch ∅ stateA1 ⟨"p1", "u1", PodPhase.Running⟩).state.ActivePods =
      [⟨"p1", "u1", PodPhase.Running, 20⟩] ∧
    (reconcilePod 20 badFetch ∅ stateA1 ⟨"p1", "u1", PodPhase.Running⟩).state.logged =
      stateA1.logged := by
  decide

/-- C16 (amended). For a listed pod with record `c` in ActivePods, where the
description fetch succeeds whenever the listed phase differs from the stored
status: the status loop rewrites that one record (status set to the listed
phase and timestamp to the clock reading if they differ, the record as it was
if not) and no other; the loop body returns, having logged the raw description
exactly once if the status differed and nothing if not; and ActivePods then
holds the rewritten record in place, unless the pod is retired in the same
pass, in which case it holds the other records only. -/
theorem status_step (s : State) (hs : Reachable s) (now : Int)
    (fetch : String → Except String String) (has : Finset String) (pod : Pod) (c : PodsInfo)
    (raw : String) (hc : c ∈ s.ActivePods) (hcn : c.Name = pod.Name)
    (hf : c.Status ≠ pod.Phase → fetch pod.Name = .ok raw) :
    ∃ pre post s', s.ActivePods = pre ++ c :: post ∧
      updateStatus now pod s.ActivePods =
        some (pre ++ (if c.Status = pod.Phase then c
                      else { c with Status := pod.Phase, Timestamp := now }) :: post,
              decide (c.Status ≠ pod.Phase)) ∧
      reconcilePod now fetch has s pod = .ok s' ∧
      s'.logged = s.logged ++ (if c.Status = pod.Phase then [] else [LogLine.podRaw raw]) ∧
      (shouldRetire has pod = false →
        s'.ActivePods = pre ++ (if c.Status = pod.Phase then c
                                else { c with Status := pod.Phase, Timestamp := now }) :: post) ∧
      (shouldRetire has pod = true → s'.ActivePods = pre ++ post) := by
  have hI := Reachable_inv hs
  obtain ⟨pre, post, hl, hpre, hpost⟩ := split_of_mem hI.activeNodup hc
  have htouch : touched now pod c = (if c.Status = pod.Phase then c
      else { c with Status := pod.Phase, Timestamp := now }) := by
    unfold touched
    by_cases h : c.Status = pod.Phase <;> simp [h]
  have hup := @updateStatus_split now pod pre c post hcn (hcn ▸ hpre)
  rw [htouch, ← hl] at hup
  cases hret : shouldRetire has pod with
  | false =>
    have hr := @reconcilePod_tracked now fetch has s pod raw hI pre c post hl hcn hret hf
    rw [htouch] at hr
    exact ⟨pre, post, _, hl, hup, hr, rfl, fun _ => rfl, fun h => Bool.noConfusion h⟩
  | true =>
    have hr := @reconcilePod_retires_lazy now fetch has s pod raw hI pre c post hl hcn hret hf
    exact ⟨pre, post, _, hl, hup, hr, rfl, fun h => Bool.noConfusion h, fun _ => rfl⟩

/-- C16 (amended), Scenario A's second tick: `p1`, tracked as Pending, is
listed as Running. -/
theorem status_step_witness :
    ∃ pre post s', stateA1.ActivePods = pre ++ ⟨"p1", "u1", PodPhase.Pending, 10⟩ :: post ∧
      updateStatus 20 ⟨"p1", "u1", PodPhase.Running⟩ stateA1.ActivePods =
        some (pre ++ (if PodPhase.Pending = PodPhase.Running then ⟨"p1", "u1", PodPhase.Pending, 10⟩
                      else { (⟨"p1", "u1", PodPhase.Pending, 10⟩ : PodsInfo) with
                               Status := PodPhase.Running, Timestamp := 20 }) :: post,
              decide (PodPhase.Pending ≠ PodPhase.Running)) ∧
      reconcilePod 20 okFetch ∅ stateA1 ⟨"p1", "u1", PodPhase.Running⟩ = .ok s' ∧
      s'.logged = stateA1.logged ++
        (if PodPhase.Pending = PodPhase.Running then [] else [LogLine.podRaw "raw:p1"]) ∧
      (shouldRetire ∅ ⟨"p1", "u1", PodPhase.Running⟩ = false →
        s'.ActivePods = pre ++ (if PodPhase.Pending = PodPhase.Running
                                then ⟨"p1", "u1", PodPhase.Pending, 10⟩
                                else { (⟨"p1", "u1", PodPhase.Pending, 10⟩ : PodsInfo) with
                                         Status := PodPhase.Running, Timestamp := 20 }) :: post) ∧
      (shouldRetire ∅ ⟨"p1", "u1", PodPhase.Running⟩ = true → s'.ActivePods = pre ++ post) :=
  status_step stateA1 stateA1_reachable 20 okFetch ∅ ⟨"p1", "u1", PodPhase.Running⟩
    ⟨"p1", "u1", PodPhase.Pending, 10⟩ "raw:p1" (by decide) rfl (fun _ => rfl)

theorem unlisted_append (listed : List String) (a b : List PodsInfo) :
    unlisted listed (a ++ b) = unlisted listed a ++ unlisted listed b := by
  simp [unlisted]

theorem unlisted_cons_listed (listed : List String) (c : PodsInfo) (l : List PodsInfo)
    (h : c.Name ∈ listed) : unlisted listed (c :: l) = unlisted listed l := by
  simp [unlisted, h]

theorem unlisted_swap (listed : List String) (pre post : List PodsInfo) (c d : PodsInfo)
    (hc : c.Name ∈ listed) (hd : d.Name ∈ listed) :
    unlisted listed (pre ++ c :: post) = unlisted listed (pre ++ d :: post) := by
  rw [unlisted_append, unlisted_append, unlisted_cons_listed _ _ _ hc,
    unlisted_cons_listed _ _ _ hd]

theorem unlisted_drop (listed : List String) (pre post : List PodsInfo) (c : PodsInfo)
    (hc : c.Name ∈ listed) :
    unlisted listed (pre ++ post) = unlisted listed (pre ++ c :: post) := by
  rw [unlisted_append, unlisted_append, unlisted_cons_listed _ _ _ hc]

theorem Untouched_refl (listed : List String) (s : State) : Untouched listed s s :=
  ⟨rfl, rfl, fun _ _ => Iff.rfl, fun _ _ => Iff.rfl⟩

theorem Untouched_trans {listed : List String} {a b c : State} (h1 : Untouched listed a b)
    (h2 : Untouched listed b c) : Untouched listed a c :=
  ⟨h2.active.trans h1.active, h2.archive.trans h1.archive,
   fun n hn => (h2.activeSet n hn).trans (h1.activeSet n hn),
   fun n hn => (h2.archiveSet n hn).trans (h1.archiveSet n hn)⟩

theorem Untouched_logPodInfo {listed : List String} {s : State}
    (fetch : String → Except String String) (name : String) :
    Untouched listed s (logPodInfo fetch name s).state := by
  obtain ⟨a, b, c, d, _⟩ := logPodInfo_fields fetch name s
  exact ⟨by rw [a], by rw [b], fun n _ => by rw [c], fun n _ => by rw [d]⟩

theorem Untouched_retire {listed : List String} {s : State} (now : Int) (pod : Pod)
    (hp : pod.Name ∈ listed) : Untouched listed s (retire now pod s).state := by
  have harch : unlisted listed (s.InactivePods ++ [recordOf now pod]) =
      unlisted listed s.InactivePods := by
    rw [unlisted_append, unlisted_cons_listed listed (recordOf now pod) [] hp]
    simp [unlisted]
  have hset1 : ∀ n, n ∉ listed → (n ∈ s.ActivePodsSet.erase pod.Name ↔ n ∈ s.ActivePodsSet) := by
    intro n hn
    rw [Finset.mem_erase]
    exact ⟨fun h => h.2, fun h => ⟨fun e => hn (e ▸ hp), h⟩⟩
  have hset2 : ∀ n, n ∉ listed →
      (n ∈ insert pod.Name s.InactivePodsSet ↔ n ∈ s.InactivePodsSet) := by
    intro n hn
    rw [Finset.mem_insert]
    exact ⟨fun h => h.resolve_left (fun e => hn (e ▸ hp)), Or.inr⟩
  cases hidx : indexOfName pod.Name s.ActivePods with
  | none =>
    simp only [retire, hidx, Result.state]
    exact ⟨rfl, harch, hset1, hset2⟩
  | some pos =>
    obtain ⟨pre, c, post, hl, hc, _, rfl⟩ := indexOfName_some hidx
    simp only [retire, hidx, Result.state]
    rw [hl, take_drop_split]
    exact ⟨(unlisted_drop listed pre post c (hc ▸ hp)).trans (by rw [hl]), harch, hset1,
      hset2⟩

theorem Untouched_reconcilePod {listed : List String} (now : Int)
    (fetch : String → Except String String) (has : Finset String) (s : State) (pod : Pod)
    (hp : pod.Name ∈ listed) : Untouched listed s (reconcilePod now fetch has s pod).state := by
  unfold reconcilePod
  split
  · exact Untouched_refl _ _
  · split
    · refine Untouched_trans ?_ (Untouched_logPodInfo fetch pod.Name)
      refine ⟨?_, rfl, ?_, fun _ _ => Iff.rfl⟩
      · simp only
        rw [unlisted_append, unlisted_cons_listed _ _ _ hp]; simp [unlisted]
      · intro n hn
        simp only [Finset.mem_insert]
        exact ⟨fun h => h.resolve_left (fun e => hn (e ▸ hp)), Or.inr⟩
    · cases hu : updateStatus now pod s.ActivePods with
      | none => exact Untouched_refl _ _
      | some r =>
        obtain ⟨pre, c, post, hl, hc, _, rfl⟩ := updateStatus_some hu
        have h1 : Untouched listed s { s with ActivePods := pre ++ touched now pod c :: post } := by
          refine ⟨?_, rfl, fun _ _ => Iff.rfl, fun _ _ => Iff.rfl⟩
          simp only
          rw [hl]
          exact unlisted_swap listed pre post _ _
            (by rw [touched_name, hc]; exact hp) (by rw [hc]; exact hp)
        simp only
        cases hlog : (if decide (c.Status ≠ pod.Phase) = true
            then logPodInfo fetch pod.Name { s with ActivePods := pre ++ touched now pod c :: post }
            else Result.ok { s with ActivePods := pre ++ touched now pod c :: post }) with
        | fatal s2 msg =>
          simp only [Result.bind, Result.state]
          have h2 : Untouched listed { s with ActivePods := pre ++ touched now pod c :: post } s2 := by
            split at hlog
            · have h := @Untouched_logPodInfo listed
                { s with ActivePods := pre ++ touched now pod c :: post } fetch pod.Name
              rw [hlog] at h
              exact h
            · cases hlog
          exact Untouched_trans h1 h2
        | ok s2 =>
          simp only [Result.bind]
          have h2 : Untouched listed { s with ActivePods := pre ++ touched now pod c :: post } s2 := by
            split at hlog
            · have h := @Untouched_logPodInfo listed
                { s with ActivePods := pre ++ touched now pod c :: post } fetch pod.Name
              rw [hlog] at h
              exact h
            · cases hlog
              exact Untouched_refl _ _
          split
          · exact Untouched_trans (Untouched_trans h1 h2) (Untouched_retire now pod hp)
          · exact Untouched_trans h1 h2

theorem Untouched_reconcile (now : Int) (fetch : String → Except String String)
    (has : Finset String) (pods : List Pod) (listed : List String)
    (hsub : ∀ p ∈ pods, p.Name ∈ listed) (s : State) :
    Untouched listed s (reconcile now fetch has pods s).state := by
  induction pods generalizing s with
  | nil => exact Untouched_refl _ _
  | cons p rest ih =>
    simp only [reconcile]
    have h1 := @Untouched_reconcilePod listed now fetch has s p (hsub p (List.mem_cons_self _ _))
    cases hr : reconcilePod now fetch has s p with
    | ok s1 =>
      rw [hr] at h1
      simp only [Result.bind]
      exact Untouched_trans h1 (ih (fun q hq => hsub q (List.mem_cons_of_mem _ hq)) s1)
    | fatal s1 msg =>
      rw [hr] at h1
      exact h1

theorem count_one_of_split {name : String} (pre : List PodsInfo) (c : PodsInfo)
    (post : List PodsInfo) (hc : c.Name = name) (hpre : name ∉ names pre)
    (hpost : name ∉ names post) : (names (pre ++ c :: post)).count name = 1 := by
  rw [names_append, names_cons, List.count_append, List.count_cons, hc]
  rw [List.count_eq_zero_of_not_mem hpre, List.count_eq_zero_of_not_mem hpost]
  simp

theorem cannot_get_ne (x : String) :
    "cannot get pod " ++ x ≠ "ActivePods mismatch with ActivePodsSet" ∧
    "cannot get pod " ++ x ≠ "ActivePods mismatch with ActivePodsSet when deleting" := by
  constructor <;>
  · intro h
    have hd := congrArg String.data h
    rw [String.data_append] at hd
    have h0 := congrArg List.head? hd
    have h1 : ("cannot get pod ".data ++ x.data).head? = some 'c' := rfl
    rw [h1] at h0
    revert h0
    decide

theorem reconcilePod_fatal {now : Int} {fetch : String → Except String String}
    {has : Finset String} {s s' : State} {pod : Pod} {msg : String} (hI : Inv s)
    (h : reconcilePod now fetch has s pod = .fatal s' msg) :
    ∃ e, fetch pod.Name = .error e ∧ msg = "cannot get pod " ++ pod.Name ++ e := by
  by_cases h1 : pod.Name ∈ s.InactivePodsSet
  · unfold reconcilePod at h
    rw [if_pos h1] at h
    cases h
  · by_cases h2 : pod.Name ∉ s.ActivePodsSet
    · unfold reconcilePod at h
      rw [if_neg h1, if_pos h2] at h
      unfold logPodInfo at h
      cases hf : fetch pod.Name with
      | ok raw => rw [hf] at h; cases h
      | error e =>
        rw [hf] at h
        simp only [Result.fatal.injEq] at h
        exact ⟨e, rfl, h.2.symm⟩
    · have hmem : pod.Name ∈ names s.ActivePods := by
        rw [hI.activeSet, List.mem_toFinset] at h2
        exact not_not.mp h2
      obtain ⟨c, hc, hcn⟩ := List.mem_map.mp hmem
      obtain ⟨pre, post, hl, hpre, hpost⟩ := split_of_mem hI.activeNodup hc
      have hok : ∀ raw, (c.Status ≠ pod.Phase → fetch pod.Name = .ok raw) → False := by
        intro raw hf
        cases hret : shouldRetire has pod with
        | false =>
          rw [@reconcilePod_tracked now fetch has s pod raw hI pre c post hl hcn hret hf] at h
          cases h
        | true =>
          rw [@reconcilePod_retires_lazy now fetch has s pod raw hI pre c post hl hcn hret hf] at h
          cases h
      by_cases hst : c.Status = pod.Phase
      · exact (hok "" (fun hne => absurd hst hne)).elim
      · cases hf : fetch pod.Name with
        | ok raw => exact (hok raw (fun _ => hf)).elim
        | error e =>
          refine ⟨e, rfl, ?_⟩
          unfold reconcilePod at h
          rw [if_neg h1, if_neg h2, hl, updateStatus_split pre c post hcn (hcn ▸ hpre)] at h
          simp only [hst, ne_eq, not_false_eq_true, decide_True, if_true, logPodInfo, hf,
            Result.bind, Result.fatal.injEq] at h
          exact h.2.symm

theorem reconcile_fatal {now : Int} {fetch : String → Except String String}
    {has : Finset String} (pods : List Pod) {s s' : State} {msg : String} (hs : Reachable s)
    (h : reconcile now fetch has pods s = .fatal s' msg) :
    ∃ p ∈ pods, ∃ e, fetch p.Name = .error e ∧ msg = "cannot get pod " ++ p.Name ++ e := by
  induction pods generalizing s with
  | nil => simp only [reconcile] at h; cases h
  | cons p rest ih =>
    simp only [reconcile] at h
    cases hp : reconcilePod now fetch has s p with
    | ok s1 =>
      rw [hp, bind_ok] at h
      obtain ⟨q, hq, e, he⟩ := ih (Reachable.pod hs hp) h
      exact ⟨q, List.mem_cons_of_mem _ hq, e, he⟩
    | fatal s1 m =>
      rw [hp] at h
      simp only [Result.bind, Result.fatal.injEq] at h
      obtain ⟨e, he, hm⟩ := reconcilePod_fatal (Reachable_inv hs) hp
      exact ⟨p, List.mem_cons_self _ _, e, he, h.2 ▸ hm⟩

/-- C18. In every state the variables can be in when a listing entry is
processed (any state reached from the initial one by returning steps): if the
entry's name is in ActivePodsSet, exactly one record of ActivePods carries it,
the status loop finds it, and the deletion scan finds it in the slice the
status loop leaves. The pod loop therefore ends the process only through a
failed description fetch, with the message of `logPodInfo`, which is neither of
the two "ActivePods mismatch" messages. -/
theorem no_consistency_fault (s : State) (hs : Reachable s) (now : Int)
    (fetch : String → Except String String) (has : Finset String) :
    (∀ pod : Pod, pod.Name ∈ s.ActivePodsSet →
      (names s.ActivePods).count pod.Name = 1 ∧
      (updateStatus now pod s.ActivePods).isSome = true ∧
      ∀ r, updateStatus now pod s.ActivePods = some r →
        (indexOfName pod.Name r.1).isSome = true) ∧
    (∀ pods s' msg, reconcile now fetch has pods s = .fatal s' msg →
      (∃ p ∈ pods, ∃ e, fetch p.Name = .error e ∧ msg = "cannot get pod " ++ p.Name ++ e) ∧
      msg ≠ "ActivePods mismatch with ActivePodsSet" ∧
      msg ≠ "ActivePods mismatch with ActivePodsSet when deleting") := by
  have hI := Reachable_inv hs
  constructor
  · intro pod hin
    have hmem : pod.Name ∈ names s.ActivePods := by
      rw [hI.activeSet, List.mem_toFinset] at hin; exact hin
    obtain ⟨c, hc, hcn⟩ := List.mem_map.mp hmem
    obtain ⟨pre, post, hl, hpre, hpost⟩ := split_of_mem hI.activeNodup hc
    have hup := @updateStatus_split now pod pre c post hcn (hcn ▸ hpre)
    refine ⟨?_, ?_, ?_⟩
    · rw [hl]; exact count_one_of_split pre c post hcn (hcn ▸ hpre) (hcn ▸ hpost)
    · rw [hl, hup]; rfl
    · intro r hr
      rw [hl, hup] at hr
      cases hr
      rw [indexOfName_split pre _ post ((touched_name now pod c).trans hcn) (hcn ▸ hpre)]
      rfl
  · intro pods s' msg h
    obtain ⟨p, hp, e, he, hm⟩ := reconcile_fatal pods hs h
    refine ⟨⟨p, hp, e, he, hm⟩, ?_, ?_⟩
    · rw [hm, String.append_assoc]; exact (cannot_get_ne _).1
    · rw [hm, String.append_assoc]; exact (cannot_get_ne _).2

/-- C18, after Scenario A's second tick: `p1` is in ActivePodsSet and is found. -/
theorem no_consistency_fault_witness :
    (names stateA2.ActivePods).count "p1" = 1 ∧
    (updateStatus 30 ⟨"p1", "u1", PodPhase.Succeeded⟩ stateA2.ActivePods).isSome = true ∧
    ∀ r, updateStatus 30 ⟨"p1", "u1", PodPhase.Succeeded⟩ stateA2.ActivePods = some r →
      (indexOfName "p1" r.1).isSome = true :=
  (no_consistency_fault stateA2 stateA2_reachable 30 okFetch ∅).1
    ⟨"p1", "u1", PodPhase.Succeeded⟩ (by decide)

theorem exists_later (ts : List Tick) : ∃ c : Int, ∀ t ∈ ts, t.now ≤ c := by
  induction ts with
  | nil => exact ⟨0, fun t ht => by cases ht⟩
  | cons t rest ih =>
    obtain ⟨c, hc⟩ := ih
    refine ⟨max c t.now, ?_⟩
    intro u hu
    rcases List.mem_cons.mp hu with rfl | hu
    · exact le_max_right _ _
    · exact le_trans (hc u hu) (le_max_left _ _)

theorem ArchiveSorted_run (ts : List Tick) (hmono : NonDecreasing ts) :
    ArchiveSorted (run ts State.init).state := by
  cases ts with
  | nil => simp [run, Result.state, ArchiveSorted, State.init]
  | cons t0 rest =>
    have hb : ∀ u ∈ t0 :: rest, t0.now ≤ u.now := by
      intro u hu
      rcases List.mem_cons.mp hu with rfl | hu
      · exact le_refl _
      · unfold NonDecreasing at hmono
        simp only [List.map_cons, List.pairwise_cons, List.mem_map, forall_exists_index,
          and_imp, forall_apply_eq_imp_iff₂] at hmono
        exact hmono.1 u hu
    obtain ⟨c, hc⟩ := exists_later (t0 :: rest)
    have hinit : Chrono t0.now State.init := by
      constructor
      · simp [ArchiveSorted, State.init]
      · intro m hm; simp [State.init] at hm
    exact (Chrono_run (t0 :: rest) hinit hmono hb hc (hc t0 (List.mem_cons_self _ _))).1

theorem window_split (now : Int) (l : List PodsInfo)
    (h : l.Pairwise (fun a b => a.Timestamp ≤ b.Timestamp)) :
    ∃ old recent, l = old ++ recent ∧ (∀ m ∈ old, inWindow now m = false) ∧
      (∀ m ∈ recent, inWindow now m = true) := by
  induction l with
  | nil =>
    exact ⟨[], [], rfl, fun _ hm => absurd hm (List.not_mem_nil _),
      fun _ hm => absurd hm (List.not_mem_nil _)⟩
  | cons c cs ih =>
    rw [List.pairwise_cons] at h
    by_cases hc : inWindow now c = true
    · refine ⟨[], c :: cs, rfl, fun _ hm => absurd hm (List.not_mem_nil _), ?_⟩
      intro m hm
      rcases List.mem_cons.mp hm with rfl | hm
      · exact hc
      · have hle := h.1 m hm
        rw [inWindow_iff] at hc ⊢
        omega
    · obtain ⟨old, recent, hl, ho, hr⟩ := ih h.2
      refine ⟨c :: old, recent, by rw [hl]; rfl, ?_, hr⟩
      intro m hm
      rcases List.mem_cons.mp hm with rfl | hm
      · simpa using hc
      · exact ho m hm

/-- C20. In every state reached from the initial empty state by ticks whose
clock readings never go back, InactivePods is ordered by timestamp (each
record's timestamp is at most that of every later record), so for every clock
reading the records outside the retention window come first: the archive is a
run of records outside the window followed by a run of records inside it. -/
theorem archive_chronological (ts : List Tick) (hmono : NonDecreasing ts) :
    (run ts State.init).state.InactivePods.Pairwise (fun a b => a.Timestamp ≤ b.Timestamp) ∧
    ∀ now, ∃ old recent, (run ts State.init).state.InactivePods = old ++ recent ∧
      (∀ m ∈ old, inWindow now m = false) ∧ (∀ m ∈ recent, inWindow now m = true) :=
  ⟨ArchiveSorted_run ts hmono, fun now => window_split now _ (ArchiveSorted_run ts hmono)⟩

/-- C20, four ticks at times 10, 20, 30, 50 that retire `p1` at 30 and `p2` at 50. -/
theorem fourTicks_archive :
    (run [tickB, tickA2, tickA3, tickB2] State.init).state.InactivePods =
      [⟨"p1", "u1", PodPhase.Succeeded, 30⟩, ⟨"p2", "u2", PodPhase.Succeeded, 50⟩] := by
  decide

theorem archive_chronological_witness :
    (run [tickB, tickA2, tickA3, tickB2] State.init).state.InactivePods.Pairwise
      (fun a b => a.Timestamp ≤ b.Timestamp) ∧
    ∀ now, ∃ old recent, (run [tickB, tickA2, tickA3, tickB2] State.init).state.InactivePods = old ++ recent ∧
      (∀ m ∈ old, inWindow now m = false) ∧ (∀ m ∈ recent, inWindow now m = true) :=
  archive_chronological [tickB, tickA2, tickA3, tickB2]
    (by simp [NonDecreasing, tickB, tickA2, tickA3, tickB2])

theorem stateThree_reachable : Reachable stateThree :=
  Reachable_run [tickThree] Reachable.init rfl

theorem reconcilePod_fetch_fails {now : Int} {fetch : String → Except String String}
    {has : Finset String} {s : State} {pod : Pod} {e : String} (hI : Inv s)
    (pre : List PodsInfo) (c : PodsInfo) (post : List PodsInfo)
    (hl : s.ActivePods = pre ++ c :: post) (hc : c.Name = pod.Name)
    (hst : c.Status ≠ pod.Phase) (hf : fetch pod.Name = .error e) :
    reconcilePod now fetch has s pod = .fatal
      { s with ActivePods := pre ++ touched now pod c :: post }
      ("cannot get pod " ++ pod.Name ++ e) := by
  have hmem : pod.Name ∈ names s.ActivePods := by
    rw [hl, names_append, names_cons, ← hc]; simp
  have h1 : pod.Name ∉ s.InactivePodsSet := by
    rw [hI.inactiveSet, List.mem_toFinset]; exact hI.apart _ hmem
  have h2 : ¬ pod.Name ∉ s.ActivePodsSet := by
    rw [hI.activeSet, List.mem_toFinset]; exact fun h => h hmem
  have hpre : pod.Name ∉ names pre := by
    have hnd := hI.activeNodup
    rw [hl, names_append, names_cons, hc] at hnd
    intro h
    exact (List.nodup_append.mp hnd).2.2 h (List.mem_cons_self _ _)
  unfold reconcilePod
  rw [if_neg h1, if_neg h2, hl, updateStatus_split pre c post hc hpre]
  simp [hst, Result.bind, logPodInfo, hf]

theorem NameStep_reconcilePod {now : Int} {fetch : String → Except String String}
    {has : Finset String} {s : State} {pod : Pod} (hI : Inv s) :
    NameStep pod.Name s (reconcilePod now fetch has s pod).state := by
  by_cases h1 : pod.Name ∈ s.InactivePodsSet
  · unfold reconcilePod
    rw [if_pos h1]
    exact NameStep.same rfl rfl
  · by_cases h2 : pod.Name ∉ s.ActivePodsSet
    · unfold reconcilePod
      rw [if_neg h1, if_pos h2]
      obtain ⟨a, b, _, _, _⟩ := logPodInfo_fields fetch pod.Name
        { s with ActivePodsSet := insert pod.Name s.ActivePodsSet,
                 ActivePods := s.ActivePods ++ [{ Name := pod.Name, UID := pod.UID,
                                                  Status := pod.Phase, Timestamp := now }] }
      refine NameStep.added ?_ ?_ ?_ ?_
      · rw [a, names_append]; rfl
      · rw [b]
      · rw [hI.activeSet, List.mem_toFinset] at h2; exact h2
      · rw [hI.inactiveSet, List.mem_toFinset] at h1; exact h1
    · have hmem : pod.Name ∈ names s.ActivePods := by
        rw [hI.activeSet, List.mem_toFinset] at h2
        exact not_not.mp h2
      obtain ⟨c, hc, hcn⟩ := List.mem_map.mp hmem
      obtain ⟨pre, post, hl, hpre, hpost⟩ := split_of_mem hI.activeNodup hc
      have hupd : names (pre ++ touched now pod c :: post) = names s.ActivePods := by
        rw [hl]; exact names_updated now pod pre c post
      have hgood : ∀ raw, (c.Status ≠ pod.Phase → fetch pod.Name = .ok raw) →
          NameStep pod.Name s (reconcilePod now fetch has s pod).state := by
        intro raw hf
        cases hret : shouldRetire has pod with
        | false =>
          rw [@reconcilePod_tracked now fetch has s pod raw hI pre c post hl hcn hret hf]
          exact NameStep.same hupd rfl
        | true =>
          rw [@reconcilePod_retires_lazy now fetch has s pod raw hI pre c post hl hcn hret hf]
          refine NameStep.moved ?_ ?_ hmem
          · simp only [Result.state]
            rw [hl, names_append, names_append, names_cons, hcn,
              List.erase_append_right _ (hcn ▸ hpre), List.erase_cons_head]
          · simp only [Result.state]
            rw [names_append]; rfl
      by_cases hst : c.Status = pod.Phase
      · exact hgood "" (fun hne => absurd hst hne)
      · cases hf : fetch pod.Name with
        | ok raw => exact hgood raw (fun _ => hf)
        | error e =>
          rw [@reconcilePod_fetch_fails now fetch has s pod e hI pre c post hl hcn hst hf]
          exact NameStep.same hupd rfl

theorem notArchived_same {old : List String} {a b : List PodsInfo} (h : names b = names a) :
    notArchived old b = notArchived old a := by
  unfold notArchived; rw [h]

theorem notArchived_moved {old : List String} {a b : List PodsInfo} {p : String}
    (h : names b = names a ++ [p]) :
    notArchived old b = (notArchived old a).filter (fun n => n != p) := by
  unfold notArchived
  rw [h, List.filter_filter]
  apply List.filter_congr
  intro n _
  by_cases h1 : n = p <;> by_cases h2 : n ∈ names a <;> simp [h1, h2]

theorem OrderExact_step {old : List String} {p : String} {s r : State} (hI : Inv s)
    (hold : OrderExact old s) (hstep : NameStep p s r) : OrderExact old r := by
  obtain ⟨added, hA, hnew⟩ := hold
  cases hstep with
  | same ha hb => exact ⟨added, by rw [ha, hA, notArchived_same hb], hnew⟩
  | added ha hb hp1 hp2 =>
    refine ⟨added ++ [p], by rw [ha, hA, notArchived_same hb, List.append_assoc], ?_⟩
    intro n hn
    rcases List.mem_append.mp hn with hn | hn
    · exact hnew n hn
    · rw [List.mem_singleton.mp hn]
      intro hpold
      apply hp1
      rw [hA]
      refine List.mem_append_left _ ?_
      unfold notArchived
      exact List.mem_filter.mpr ⟨hpold, decide_eq_true hp2⟩
  | moved ha hb hp =>
    have hnd : (notArchived old s.InactivePods ++ added).Nodup := hA ▸ hI.activeNodup
    have hndF : (notArchived old s.InactivePods).Nodup := (List.nodup_append.mp hnd).1
    have hF : notArchived old r.InactivePods = (notArchived old s.InactivePods).erase p := by
      rw [notArchived_moved hb, hndF.erase_eq_filter]
    by_cases hpF : p ∈ notArchived old s.InactivePods
    · exact ⟨added, by rw [ha, hA, hF, List.erase_append_left _ hpF], hnew⟩
    · refine ⟨added.erase p, ?_, fun n hn => hnew n (List.mem_of_mem_erase hn)⟩
      rw [ha, hA, hF, List.erase_append_right _ hpF, List.erase_of_not_mem hpF]

theorem OrderExact_start {s : State} (hI : Inv s) : OrderExact (names s.ActivePods) s := by
  refine ⟨[], ?_, fun n hn => absurd hn (List.not_mem_nil _)⟩
  rw [List.append_nil]
  unfold notArchived
  symm
  apply List.filter_eq_self.mpr
  intro n hn
  exact decide_eq_true (hI.apart n hn)

theorem OrderExact_reconcile {now : Int} {fetch : String → Except String String}
    {has : Finset String} (pods : List Pod) (old : List String) {s : State} (hI : Inv s)
    (hold : OrderExact old s) : OrderExact old (reconcile now fetch has pods s).state := by
  induction pods generalizing s with
  | nil => exact hold
  | cons p rest ih =>
    simp only [reconcile]
    have hI1 : Inv (reconcilePod now fetch has s p).state := Inv_reconcilePod hI
    have h1 : OrderExact old (reconcilePod now fetch has s p).state :=
      OrderExact_step hI hold (NameStep_reconcilePod hI)
    cases hr : reconcilePod now fetch has s p with
    | ok s1 =>
      rw [hr] at hI1 h1
      rw [bind_ok]
      exact ih hI1 h1
    | fatal s1 msg =>
      rw [hr] at h1
      exact h1

theorem listingTwo_result :
    names stateThree.ActivePods = ["p1", "p2", "p3"] ∧
    names (reconcile 20 okFetch ∅ listingTwo stateThree).state.ActivePods = ["p1", "p3", "p9"] ∧
    names (reconcile 20 okFetch ∅ listingTwo stateThree).state.InactivePods = ["p2"] := by
  decide

/-- C17. For every state and every pod listing, after the pod loop (also when
it ends in a fatal exit): the ActivePods records whose name is not listed are
the same records in the same order as before; a name that is not listed is in
ActivePodsSet, in InactivePods and in InactivePodsSet exactly when it was
before. And in every state the variables can be in when the loop starts, the
records that remain keep their order: the names of ActivePods after the loop
are exactly the old names that are not in the archive, in their old order,
followed by names that were not in ActivePods before. -/
theorem unlisted_pods_untouched (now : Int) (fetch : String → Except String String)
    (has : Finset String) (pods : List Pod) (s : State) :
    unlisted (pods.map (fun p => p.Name)) (reconcile now fetch has pods s).state.ActivePods =
      unlisted (pods.map (fun p => p.Name)) s.ActivePods ∧
    (∀ n, n ∉ pods.map (fun p => p.Name) →
      ((n ∈ (reconcile now fetch has pods s).state.ActivePodsSet ↔ n ∈ s.ActivePodsSet) ∧
       (n ∈ names (reconcile now fetch has pods s).state.InactivePods ↔ n ∈ names s.InactivePods) ∧
       (n ∈ (reconcile now fetch has pods s).state.InactivePodsSet ↔ n ∈ s.InactivePodsSet))) ∧
    (Reachable s →
      ∃ added, names (reconcile now fetch has pods s).state.ActivePods =
          (names s.ActivePods).filter
            (fun n => decide (n ∉ names (reconcile now fetch has pods s).state.InactivePods))
          ++ added ∧
        ∀ n ∈ added, n ∉ names s.ActivePods) := by
  have h := Untouched_reconcile now fetch has pods (pods.map (fun p => p.Name))
    (fun p hp => List.mem_map_of_mem _ hp) s
  refine ⟨h.active, fun n hn => ⟨h.activeSet n hn, ?_, h.archiveSet n hn⟩, ?_⟩
  · have key : ∀ l : List PodsInfo,
        n ∈ names l ↔ n ∈ names (unlisted (pods.map (fun p => p.Name)) l) := by
      intro l
      constructor
      · intro h
        obtain ⟨c, hc, rfl⟩ := List.mem_map.mp h
        exact List.mem_map.mpr ⟨c, List.mem_filter.mpr ⟨hc, decide_eq_true hn⟩, rfl⟩
      · intro h
        obtain ⟨c, hc, rfl⟩ := List.mem_map.mp h
        exact List.mem_map.mpr ⟨c, (List.mem_filter.mp hc).1, rfl⟩
    rw [key, key s.InactivePods, h.archive]
  · intro hs
    have hI := Reachable_inv hs
    exact @OrderExact_reconcile now fetch has pods (names s.ActivePods) s hI (OrderExact_start hI)

/-- C17, with `p1`, `p2`, `p3` tracked in this order and a listing that retires
`p2` and adds `p9`: `p1` and `p3`, not listed, are untouched, and the names
after the loop are `p1`, `p3` followed by the new `p9`. -/
theorem unlisted_pods_untouched_witness :
    unlisted (listingTwo.map (fun p => p.Name))
        (reconcile 20 okFetch ∅ listingTwo stateThree).state.ActivePods =
      unlisted (listingTwo.map (fun p => p.Name)) stateThree.ActivePods ∧
    ("p1" ∈ (reconcile 20 okFetch ∅ listingTwo stateThree).state.ActivePodsSet ↔
      "p1" ∈ stateThree.ActivePodsSet) ∧
    ("p1" ∈ names (reconcile 20 okFetch ∅ listingTwo stateThree).state.InactivePods ↔
      "p1" ∈ names stateThree.InactivePods) ∧
    (∃ added, names (reconcile 20 okFetch ∅ listingTwo stateThree).state.ActivePods =
        (names stateThree.ActivePods).filter
          (fun n => decide (n ∉ names (reconcile 20 okFetch ∅ listingTwo stateThree).state.InactivePods))
        ++ added ∧
      ∀ n ∈ added, n ∉ names stateThree.ActivePods) :=
  ⟨(unlisted_pods_untouched 20 okFetch ∅ listingTwo stateThree).1,
   ((unlisted_pods_untouched 20 okFetch ∅ listingTwo stateThree).2.1 "p1" (by decide)).1,
   ((unlisted_pods_untouched 20 okFetch ∅ listingTwo stateThree).2.1 "p1" (by decide)).2.1,
   (unlisted_pods_untouched 20 okFetch ∅ listingTwo stateThree).2.2 stateThree_reachable⟩

end PodLifecycleLogger
